import Mathlib

/-!
Shallow embedding of the `convex-orchestrator` durable-workflow store
(`src/component/lib.ts` and `src/component/schema.ts`) together with the
fragment of the worker runtime (`src/client/index.ts`) needed for the
nesting-guard property, and proofs of the specification claims about them.

The store is modelled as two association tables (`workflows`, `steps`) with
fresh-id counters; each transactional mutation of `lib.ts` becomes a pure
function `Store → args → result × Store`.  Convex's `Date.now()` becomes an
explicit `now : Nat` argument, and Convex's store-assigned `_creationTime`
(unique, monotone in commit order) is modelled by the `nextCreationTime`
counter.  Index scans such as
`.withIndex("status", q => q.eq("status","pending")).order("asc").first()`
are modelled by selecting the minimum of the corresponding index key
(`creationTime`, `(sleepUntil, creationTime)`, `(leaseExpiresAt, creationTime)`)
over the rows matching the equality prefix.
-/

namespace Orchestrator

/-- Opaque user JSON values (`v.any()` in the schema). Only equality of such
values is ever consulted by the orchestrator, so a small value type suffices. -/
inductive Value
  | null
  | bool (b : Bool)
  | int (n : Int)
  | str (s : String)
  deriving DecidableEq, Repr

/-- Workflow status. `schema.ts` declares pending/running/sleeping/completed/
failed; the client additionally knows `waiting` (used by the spec-modelled
signal operations). -/
inductive WStatus
  | pending
  | running
  | sleeping
  | waiting
  | completed
  | failed
  deriving DecidableEq, Repr

/-- Step status, from `schema.ts`. -/
inductive SStatus
  | pending
  | running
  | completed
  | failed
  deriving DecidableEq, Repr

/-- A `workflows` row (see `schema.ts`).  `claimedBy`/`claimedAt`/
`leaseExpiresAt` conflate Convex's `undefined` and `null` into `Option.none`:
every guard in `lib.ts` compares them with `!==`/`== null`, which does not
distinguish the two.  `pendingSignals` is the spec-modelled queued-signal map. -/
structure Workflow where
  name : String
  creationTime : Nat
  status : WStatus
  input : Value
  output : Option Value := none
  error : Option String := none
  claimedBy : Option String := none
  claimedAt : Option Nat := none
  leaseExpiresAt : Option Nat := none
  stepIdsByName : List (String × Nat) := []
  sleepUntil : Option Nat := none
  pendingSignals : List (String × Value) := []
  deriving DecidableEq, Repr

/-- A `steps` row (see `schema.ts`).  `awaitingSignal` is the spec-modelled
registration of a pending signal waiter. -/
structure Step where
  workflowId : Nat
  name : String
  status : SStatus
  output : Option Value := none
  error : Option String := none
  sleepUntil : Option Nat := none
  attempts : Nat := 1
  startedAt : Option Nat := none
  completedAt : Option Nat := none
  awaitingSignal : Option String := none
  deriving DecidableEq, Repr

/-- The orchestrator store: the two tables plus fresh-id and creation-time
counters (modelling Convex's unique document ids and unique, monotone
`_creationTime`). -/
structure Store where
  workflows : List (Nat × Workflow) := []
  steps : List (Nat × Step) := []
  nextWorkflowId : Nat := 0
  nextStepId : Nat := 0
  nextCreationTime : Nat := 0
  deriving DecidableEq, Repr

def CLAIM_TIMEOUT_MS : Nat := 30000

def ALL_WORKFLOWS : String := "*"

/-! ### Association-table helpers -/

/-- Lookup by id (Convex `ctx.db.get`): first entry with the given key. -/
def idFind {β : Type} (l : List (Nat × β)) (id : Nat) : Option β :=
  match l with
  | [] => none
  | (i, x) :: rest => if i = id then some x else idFind rest id

/-- Patch the (unique) row with the given key (Convex `ctx.db.patch`). -/
def idPatch {β : Type} (l : List (Nat × β)) (id : Nat) (f : β → β) : List (Nat × β) :=
  match l with
  | [] => []
  | (i, x) :: rest => if i = id then (i, f x) :: rest else (i, x) :: idPatch rest id f

/-- Lookup in a string-keyed map field (JS object property access). -/
def strFind {β : Type} (l : List (String × β)) (k : String) : Option β :=
  match l with
  | [] => none
  | (k', v) :: rest => if k' = k then some v else strFind rest k

/-- Set a key in a string-keyed map field (JS object spread-with-key). -/
def strInsert {β : Type} (l : List (String × β)) (k : String) (v : β) : List (String × β) :=
  match l with
  | [] => [(k, v)]
  | (k', v') :: rest => if k' = k then (k, v) :: rest else (k', v') :: strInsert rest k v

/-- Remove a key from a string-keyed map field (JS `delete`). -/
def strRemove {β : Type} (l : List (String × β)) (k : String) : List (String × β) :=
  match l with
  | [] => []
  | (k', v') :: rest => if k' = k then rest else (k', v') :: strRemove rest k

/-! ### Store accessors -/

def getWf (s : Store) (id : Nat) : Option Workflow :=
  idFind s.workflows id

def getStep (s : Store) (id : Nat) : Option Step :=
  idFind s.steps id

def patchWf (s : Store) (id : Nat) (f : Workflow → Workflow) : Store :=
  { s with workflows := idPatch s.workflows id f }

def patchStep (s : Store) (id : Nat) (f : Step → Step) : Store :=
  { s with steps := idPatch s.steps id f }

/-! ### Index-scan selection

`withIndex(...).order("asc").first()` (and `.first()`, whose default order is
also ascending) returns the row minimising the index key among rows matching
the equality/range prefix.  `selectMin better p l` models this: it folds over
the table keeping the `better` (strictly smaller index key) candidate among
rows satisfying `p`.  Convex creation times are unique, so strictness of
`better` never matters on reachable stores. -/

def pickMin {α β : Type} (better : β → β → Bool) (sel : α → Option β) (l : List α) :
    Option β :=
  l.foldl
    (fun acc a =>
      match sel a with
      | none => acc
      | some c =>
        match acc with
        | none => some c
        | some b => if better c b then some c else some b)
    none

def selectMin (better : (Nat × Workflow) → (Nat × Workflow) → Bool)
    (p : (Nat × Workflow) → Bool) (l : List (Nat × Workflow)) :
    Option (Nat × Workflow) :=
  pickMin better (fun e => if p e then some e else none) l

/-- Index key order for `status` / `name_status` indexes: ascending
`_creationTime`. -/
def betterByCt (a b : Nat × Workflow) : Bool :=
  a.2.creationTime < b.2.creationTime

/-- Index key order for `status_sleepUntil` / `name_status_sleepUntil`:
ascending `(sleepUntil, _creationTime)`.  All rows compared carry a
`sleepUntil` value (the range predicate requires one). -/
def betterBySleepCt (a b : Nat × Workflow) : Bool :=
  let au := a.2.sleepUntil.getD 0
  let bu := b.2.sleepUntil.getD 0
  au < bu || (au == bu && a.2.creationTime < b.2.creationTime)

/-- Index key order for `status_leaseExpiresAt` / `name_status_leaseExpiresAt`:
ascending `(leaseExpiresAt, _creationTime)`. -/
def betterByLeaseCt (a b : Nat × Workflow) : Bool :=
  let al := a.2.leaseExpiresAt.getD 0
  let bl := b.2.leaseExpiresAt.getD 0
  al < bl || (al == bl && a.2.creationTime < b.2.creationTime)

/-- The per-name loops of `claimWorkflow`: run `sel` for each requested name
and keep the `better` candidate (`better` is the cross-name comparison the
source applies to the per-name query results). -/
def bestAcrossNames (names : List String) (sel : String → Option (Nat × Workflow))
    (better : (Nat × Workflow) → (Nat × Workflow) → Bool) : Option (Nat × Workflow) :=
  pickMin better sel names

/-- Cross-name comparison of sleeping candidates, from the source:
`sleepingUntil < bestUntil || (sleepingUntil === bestUntil && creationTime <)`
where a missing `sleepUntil` reads as `+∞`. -/
def sleepCandLt (a b : Nat × Workflow) : Bool :=
  match a.2.sleepUntil, b.2.sleepUntil with
  | some au, some bu => au < bu || (au == bu && a.2.creationTime < b.2.creationTime)
  | some _, none => true
  | none, some _ => false
  | none, none => a.2.creationTime < b.2.creationTime

/-! ### Row predicates used by the claim scanner -/

def isPendingRow (e : Nat × Workflow) : Bool :=
  e.2.status == WStatus.pending

def isDueSleeperRow (now : Nat) (e : Nat × Workflow) : Bool :=
  e.2.status == WStatus.sleeping &&
    (match e.2.sleepUntil with
     | some t => decide (t ≤ now)
     | none => false)

def isExpiredRow (now : Nat) (e : Nat × Workflow) : Bool :=
  e.2.status == WStatus.running &&
    (match e.2.leaseExpiresAt with
     | some l => decide (l < now)
     | none => false)

/-- The back-compat reclaim condition: `running`, no `leaseExpiresAt`, a
`claimedAt`, and `now - claimedAt > CLAIM_TIMEOUT_MS`. -/
def isLegacyRow (now : Nat) (e : Nat × Workflow) : Bool :=
  e.2.status == WStatus.running && e.2.leaseExpiresAt == none &&
    (match e.2.claimedAt with
     | some t => decide (t + CLAIM_TIMEOUT_MS < now)
     | none => false)

def nameIs (n : String) (e : Nat × Workflow) : Bool :=
  e.2.name == n

/-- The back-compat scan: running rows in `_creationTime` order, `take(25)`,
first satisfying the legacy condition. -/
def legacyScan (now : Nat) (p : (Nat × Workflow) → Bool) (l : List (Nat × Workflow)) :
    Option (Nat × Workflow) :=
  ((l.filter p).mergeSort (fun a b => a.2.creationTime ≤ b.2.creationTime)).take 25
    |>.find? (isLegacyRow now)

/-! ### Store operations (translated from `src/component/lib.ts`) -/

/-- `startWorkflow`: insert a new `pending` workflow. -/
def startWorkflow (s : Store) (name : String) (input : Value) : Nat × Store :=
  let id := s.nextWorkflowId
  let wf : Workflow :=
    { name := name
      creationTime := s.nextCreationTime
      status := .pending
      input := input }
  (id,
   { s with
       workflows := s.workflows ++ [(id, wf)]
       nextWorkflowId := id + 1
       nextCreationTime := s.nextCreationTime + 1 })

structure ClaimResult where
  workflowId : Nat
  name : String
  input : Value
  deriving DecidableEq, Repr

/-- Patch applied when claiming a pending workflow. -/
def claimPendingPatch (workerId : String) (now : Nat) (wf : Workflow) : Workflow :=
  { wf with
      status := .running
      claimedBy := some workerId
      claimedAt := some now
      leaseExpiresAt := some (now + CLAIM_TIMEOUT_MS) }

/-- Patch applied when claiming a due sleeper (also clears `sleepUntil`). -/
def claimSleeperPatch (workerId : String) (now : Nat) (wf : Workflow) : Workflow :=
  { wf with
      status := .running
      claimedBy := some workerId
      claimedAt := some now
      leaseExpiresAt := some (now + CLAIM_TIMEOUT_MS)
      sleepUntil := none }

/-- Patch applied when reclaiming an expired or legacy lease (lease renewal
only: the status field is not written). -/
def claimExpiredPatch (workerId : String) (now : Nat) (wf : Workflow) : Workflow :=
  { wf with
      claimedBy := some workerId
      claimedAt := some now
      leaseExpiresAt := some (now + CLAIM_TIMEOUT_MS) }

def claimResultOf (e : Nat × Workflow) : ClaimResult :=
  ⟨e.1, e.2.name, e.2.input⟩

/-- `claimWorkflow`: select at most one workflow (pending, then due sleeper,
then expired lease, then legacy reclaim; globally under the `"*"` wildcard,
otherwise per requested name) and claim it. -/
def claimWorkflow (s : Store) (workflowNames : List String) (workerId : String) (now : Nat) :
    Option ClaimResult × Store :=
  if workflowNames.contains ALL_WORKFLOWS then
    match selectMin betterByCt isPendingRow s.workflows with
    | some e => (some (claimResultOf e), patchWf s e.1 (claimPendingPatch workerId now))
    | none =>
      match selectMin betterBySleepCt (isDueSleeperRow now) s.workflows with
      | some e => (some (claimResultOf e), patchWf s e.1 (claimSleeperPatch workerId now))
      | none =>
        match selectMin betterByLeaseCt (isExpiredRow now) s.workflows with
        | some e => (some (claimResultOf e), patchWf s e.1 (claimExpiredPatch workerId now))
        | none =>
          match legacyScan now (fun e => e.2.status == WStatus.running) s.workflows with
          | some e => (some (claimResultOf e), patchWf s e.1 (claimExpiredPatch workerId now))
          | none => (none, s)
  else
    match
      bestAcrossNames workflowNames
        (fun n => selectMin betterByCt (fun e => nameIs n e && isPendingRow e) s.workflows)
        betterByCt with
    | some e => (some (claimResultOf e), patchWf s e.1 (claimPendingPatch workerId now))
    | none =>
      match
        bestAcrossNames workflowNames
          (fun n =>
            selectMin betterBySleepCt (fun e => nameIs n e && isDueSleeperRow now e) s.workflows)
          sleepCandLt with
      | some e => (some (claimResultOf e), patchWf s e.1 (claimSleeperPatch workerId now))
      | none =>
        match
          bestAcrossNames workflowNames
            (fun n =>
              selectMin betterByLeaseCt (fun e => nameIs n e && isExpiredRow now e) s.workflows)
            betterByCt with
        | some e => (some (claimResultOf e), patchWf s e.1 (claimExpiredPatch workerId now))
        | none =>
          match
            bestAcrossNames workflowNames
              (fun n =>
                legacyScan now (fun e => nameIs n e && e.2.status == WStatus.running) s.workflows)
              betterByCt with
          | some e => (some (claimResultOf e), patchWf s e.1 (claimExpiredPatch workerId now))
          | none => (none, s)

/-- `heartbeat`: false if the workflow is gone or claimed by someone else;
otherwise refresh `claimedAt`/`leaseExpiresAt` (no status or lease check). -/
def heartbeat (s : Store) (workflowId : Nat) (workerId : String) (now : Nat) : Bool × Store :=
  match getWf s workflowId with
  | none => (false, s)
  | some wf =>
    if wf.claimedBy = some workerId then
      (true,
       patchWf s workflowId fun w0 =>
         { w0 with claimedAt := some now, leaseExpiresAt := some (now + CLAIM_TIMEOUT_MS) })
    else (false, s)

/-- `completeWorkflow`: ownership-guarded terminal transition. -/
def completeWorkflow (s : Store) (workflowId : Nat) (workerId : String) (output : Value) :
    Bool × Store :=
  match getWf s workflowId with
  | none => (false, s)
  | some wf =>
    if wf.claimedBy = some workerId then
      (true,
       patchWf s workflowId fun w0 =>
         { w0 with
             status := .completed
             output := some output
             claimedBy := none
             claimedAt := none
             leaseExpiresAt := none })
    else (false, s)

/-- `failWorkflow`: ownership-guarded terminal transition. -/
def failWorkflow (s : Store) (workflowId : Nat) (workerId : String) (error : String) :
    Bool × Store :=
  match getWf s workflowId with
  | none => (false, s)
  | some wf =>
    if wf.claimedBy = some workerId then
      (true,
       patchWf s workflowId fun w0 =>
         { w0 with
             status := .failed
             error := some error
             claimedBy := none
             claimedAt := none
             leaseExpiresAt := none })
    else (false, s)

/-- `sleepWorkflow`: only valid from `running` under the caller's claim. -/
def sleepWorkflow (s : Store) (workflowId : Nat) (workerId : String) (sleepUntil : Nat) :
    Bool × Store :=
  match getWf s workflowId with
  | none => (false, s)
  | some wf =>
    if wf.status = .running ∧ wf.claimedBy = some workerId then
      (true,
       patchWf s workflowId fun w0 =>
         { w0 with
             status := .sleeping
             sleepUntil := some sleepUntil
             claimedBy := none
             claimedAt := none
             leaseExpiresAt := none })
    else (false, s)

structure StepInfo where
  stepId : Nat
  status : SStatus
  output : Option Value
  error : Option String
  sleepUntil : Option Nat
  isNew : Bool
  deriving DecidableEq, Repr

/-- `getOrCreateStep`: throws unless the workflow is `running` under
`workerId`; returns the existing step for the name if `stepIdsByName`
resolves, otherwise inserts a fresh `running` step and appends the mapping. -/
def getOrCreateStep (s : Store) (workflowId : Nat) (stepName : String) (workerId : String)
    (now : Nat) : Except String (StepInfo × Store) :=
  match getWf s workflowId with
  | none => .error "Workflow not claimed by worker"
  | some wf =>
    if wf.status = .running ∧ wf.claimedBy = some workerId then
      let create : StepInfo × Store :=
        let stepId := s.nextStepId
        let st : Step :=
          { workflowId := workflowId
            name := stepName
            status := .running
            attempts := 1
            startedAt := some now }
        let s1 : Store :=
          { s with steps := s.steps ++ [(stepId, st)], nextStepId := stepId + 1 }
        (⟨stepId, .running, none, none, none, true⟩,
         patchWf s1 workflowId fun w0 =>
           { w0 with stepIdsByName := strInsert w0.stepIdsByName stepName stepId })
      match strFind wf.stepIdsByName stepName with
      | some stepId =>
        match getStep s stepId with
        | some st =>
          .ok (⟨stepId, st.status, st.output, st.error, st.sleepUntil, false⟩, s)
        | none => .ok create
      | none => .ok create
    else .error "Workflow not claimed by worker"

/-- `scheduleSleep`: atomically associate a sleep marker with the workflow's
sleep transition.  The effective wake time prefers the step's stored
`sleepUntil`; a wake time `≤ now` is rejected. -/
def scheduleSleep (s : Store) (workflowId stepId : Nat) (workerId : String)
    (sleepUntil now : Nat) : Bool × Store :=
  match getWf s workflowId with
  | none => (false, s)
  | some wf =>
    if wf.status = .running ∧ wf.claimedBy = some workerId then
      match getStep s stepId with
      | none => (false, s)
      | some st =>
        if st.workflowId = workflowId ∧ st.status = .running then
          let chosenSleepUntil := st.sleepUntil.getD sleepUntil
          if chosenSleepUntil ≤ now then (false, s)
          else
            let s1 :=
              if st.sleepUntil = none then
                patchStep s stepId fun st0 => { st0 with sleepUntil := some chosenSleepUntil }
              else s
            (true,
             patchWf s1 workflowId fun w0 =>
               { w0 with
                   status := .sleeping
                   sleepUntil := some chosenSleepUntil
                   claimedBy := none
                   claimedAt := none
                   leaseExpiresAt := none })
        else (false, s)
    else (false, s)

/-- `completeStep`: the step must be `running` and its parent workflow
`running` under the caller's claim. -/
def completeStep (s : Store) (stepId : Nat) (workerId : String) (output : Value) (now : Nat) :
    Bool × Store :=
  match getStep s stepId with
  | none => (false, s)
  | some st =>
    if st.status = .running then
      match getWf s st.workflowId with
      | none => (false, s)
      | some wf =>
        if wf.status = .running ∧ wf.claimedBy = some workerId then
          (true,
           patchStep s stepId fun st0 =>
             { st0 with
                 status := .completed
                 output := some output
                 sleepUntil := none
                 completedAt := some now })
        else (false, s)
    else (false, s)

/-- `failStep`: same guards as `completeStep`. -/
def failStep (s : Store) (stepId : Nat) (workerId : String) (error : String) (now : Nat) :
    Bool × Store :=
  match getStep s stepId with
  | none => (false, s)
  | some st =>
    if st.status = .running then
      match getWf s st.workflowId with
      | none => (false, s)
      | some wf =>
        if wf.status = .running ∧ wf.claimedBy = some workerId then
          (true,
           patchStep s stepId fun st0 =>
             { st0 with
                 status := .failed
                 error := some error
                 sleepUntil := none
                 completedAt := some now })
        else (false, s)
    else (false, s)

/-- `subscribePendingWorkflows`: `1` when a matching pending row or a matching
due sleeper exists, else `0`.  (The source checks only those two predicates.) -/
def subscribePendingWorkflows (s : Store) (workflowNames : List String) (now : Nat) : Nat :=
  if workflowNames.contains ALL_WORKFLOWS then
    if (s.workflows.find? isPendingRow).isSome then 1
    else if (s.workflows.find? (isDueSleeperRow now)).isSome then 1
    else 0
  else
    if workflowNames.any
        (fun n => (s.workflows.find? (fun e => nameIs n e && isPendingRow e)).isSome) then 1
    else if workflowNames.any
        (fun n =>
          (s.workflows.find? (fun e => nameIs n e && isDueSleeperRow now e)).isSome) then 1
    else 0

/-! ### Spec-modelled signal operations

The component mutations `waitForSignal` and `signalWorkflow` are called from
`src/client/index.ts` (`orchestratorApi.waitForSignal`,
`component.lib.signalWorkflow`) and exercised by the client tests, but their
component-side implementation is not among the sources; they are modelled
here from the spec. -/

inductive WaitResult
  | waiting
  | signaled (payload : Value)
  deriving DecidableEq, Repr

/-- Modelled from the spec: the component mutation `waitForSignal` is missing
from the sources (only its client caller exists).  Per the spec: ownership and
step checks as for `scheduleSleep`; if `pendingSignals[signalName]` exists,
consume it and return `signaled`; otherwise record the step as the pending
waiter for the signal, transition the workflow to `waiting` releasing the
lease, and return `waiting`.  A failed guard is modelled as `none`. -/
def waitForSignal (s : Store) (workflowId stepId : Nat) (workerId : String)
    (signalName : String) : Option WaitResult × Store :=
  match getWf s workflowId with
  | none => (none, s)
  | some wf =>
    if wf.status = .running ∧ wf.claimedBy = some workerId then
      match getStep s stepId with
      | none => (none, s)
      | some st =>
        if st.workflowId = workflowId ∧ st.status = .running then
          match strFind wf.pendingSignals signalName with
          | some payload =>
            (some (.signaled payload),
             patchWf s workflowId fun w0 =>
               { w0 with pendingSignals := strRemove w0.pendingSignals signalName })
          | none =>
            (some .waiting,
             patchWf (patchStep s stepId fun st0 => { st0 with awaitingSignal := some signalName })
               workflowId fun w0 =>
               { w0 with
                   status := .waiting
                   claimedBy := none
                   claimedAt := none
                   leaseExpiresAt := none })
        else (none, s)
    else (none, s)

/-- The registered waiter of a workflow for a signal: the first step row of
the workflow that is `running` with `awaitingSignal = signalName`. -/
def findWaiter (s : Store) (workflowId : Nat) (signalName : String) : Option (Nat × Step) :=
  s.steps.find? fun e =>
    e.2.workflowId == workflowId && e.2.awaitingSignal == some signalName &&
      e.2.status == SStatus.running

/-- Modelled from the spec: the component mutation `signalWorkflow` is missing
from the sources (only its client wrapper `exposeApi.signalWorkflow` and the
client tests exist).  Per the spec: if a waiting step is registered for the
signal, atomically complete that step with `output = payload`, transition the
workflow from `waiting` back to `pending`, and clear the registration;
otherwise enqueue the payload into `pendingSignals`.  A missing workflow is
modelled as `false`. -/
def signalWorkflow (s : Store) (workflowId : Nat) (signalName : String) (payload : Value)
    (now : Nat) : Bool × Store :=
  match getWf s workflowId with
  | none => (false, s)
  | some wf =>
    match findWaiter s workflowId signalName with
    | some (stepId, _) =>
      if wf.status = .waiting then
        (true,
         patchWf
           (patchStep s stepId fun st0 =>
             { st0 with
                 status := .completed
                 output := some payload
                 awaitingSignal := none
                 completedAt := some now })
           workflowId fun w0 => { w0 with status := .pending })
      else
        (true,
         patchWf s workflowId fun w0 =>
           { w0 with pendingSignals := strInsert w0.pendingSignals signalName payload })
    | none =>
      (true,
       patchWf s workflowId fun w0 =>
         { w0 with pendingSignals := strInsert w0.pendingSignals signalName payload })

/-! ### Operation traces and reachability -/

/-- One store operation with its arguments (`now` standing for the wall time
of the transaction). -/
inductive Op
  | startWorkflow (name : String) (input : Value)
  | claimWorkflow (workflowNames : List String) (workerId : String) (now : Nat)
  | heartbeat (workflowId : Nat) (workerId : String) (now : Nat)
  | completeWorkflow (workflowId : Nat) (workerId : String) (output : Value)
  | failWorkflow (workflowId : Nat) (workerId : String) (error : String)
  | sleepWorkflow (workflowId : Nat) (workerId : String) (sleepUntil : Nat)
  | getOrCreateStep (workflowId : Nat) (stepName : String) (workerId : String) (now : Nat)
  | scheduleSleep (workflowId : Nat) (stepId : Nat) (workerId : String) (sleepUntil : Nat)
      (now : Nat)
  | completeStep (stepId : Nat) (workerId : String) (output : Value) (now : Nat)
  | failStep (stepId : Nat) (workerId : String) (error : String) (now : Nat)
  | waitForSignal (workflowId : Nat) (stepId : Nat) (workerId : String) (signalName : String)
  | signalWorkflow (workflowId : Nat) (signalName : String) (payload : Value) (now : Nat)
  deriving DecidableEq, Repr

/-- The state transition of one operation (a throwing `getOrCreateStep`
leaves the store unchanged: the transaction aborts). -/
def Store.apply (s : Store) : Op → Store
  | .startWorkflow n i => (startWorkflow s n i).2
  | .claimWorkflow names w now => (claimWorkflow s names w now).2
  | .heartbeat id w now => (heartbeat s id w now).2
  | .completeWorkflow id w out => (completeWorkflow s id w out).2
  | .failWorkflow id w err => (failWorkflow s id w err).2
  | .sleepWorkflow id w su => (sleepWorkflow s id w su).2
  | .getOrCreateStep id n w now =>
    match getOrCreateStep s id n w now with
    | .ok (_, s') => s'
    | .error _ => s
  | .scheduleSleep id sid w su now => (scheduleSleep s id sid w su now).2
  | .completeStep sid w out now => (completeStep s sid w out now).2
  | .failStep sid w err now => (failStep s sid w err now).2
  | .waitForSignal id sid w sig => (waitForSignal s id sid w sig).2
  | .signalWorkflow id sig payload now => (signalWorkflow s id sig payload now).2

/-- The empty store. -/
def Store.init : Store := {}

/-- A store is reachable when some operation trace builds it from the empty
store. -/
def Reachable (s : Store) : Prop :=
  ∃ ops : List Op, s = ops.foldl Store.apply Store.init

def runTrace (ops : List Op) : Store :=
  ops.foldl Store.apply Store.init

/-- The worker on whose behalf an operation runs (`none` for the public
client-facing operations). -/
def Op.workerOf : Op → Option String
  | .startWorkflow _ _ => none
  | .claimWorkflow _ w _ => some w
  | .heartbeat _ w _ => some w
  | .completeWorkflow _ w _ => some w
  | .failWorkflow _ w _ => some w
  | .sleepWorkflow _ w _ => some w
  | .getOrCreateStep _ _ w _ => some w
  | .scheduleSleep _ _ w _ _ => some w
  | .completeStep _ w _ _ => some w
  | .failStep _ w _ _ => some w
  | .waitForSignal _ _ w _ => some w
  | .signalWorkflow _ _ _ _ => none

/-- Whether an operation is a `claimWorkflow` call. -/
def Op.isClaimOp : Op → Bool
  | .claimWorkflow _ _ _ => true
  | _ => false

/-! ### Worker runtime fragment (translated from `src/client/index.ts`)

Only the control flow needed for the nesting-guard claim is embedded: a
`ctx.step(name, body)` whose body is a single call to one of `ctx.sleep`,
`ctx.sleepUntil` or `ctx.waitForSignal`.  In the source, each of those three
context functions checks `executingStepName` *first* and throws before doing
anything else; inside `ctx.step` the flag is always set, so the body's
behaviour is exactly that throw. -/

/-- The body of the step: a nested call to one of the three context
operations. -/
inductive InnerCall
  | sleepCall (marker : String) (durationMs : Int)
  | sleepUntilCall (marker : String) (timestamp : Int)
  | waitForSignalCall (marker : String) (signalName : String)
  deriving DecidableEq, Repr

/-- The error messages thrown by the `executingStepName` guards, verbatim from
`src/client/index.ts`. -/
def nestedGuardMessage (call : InnerCall) (executingStepName : String) : String :=
  match call with
  | .sleepCall _ _ =>
    "ctx.sleep() " ++ "cannot be called inside ctx.step" ++ "(\"" ++ executingStepName ++
      "\"). " ++ "Move the sleep outside of ctx.step and make it its own top-level await."
  | .sleepUntilCall _ _ =>
    "ctx.sleepUntil() " ++ "cannot be called inside ctx.step" ++ "(\"" ++ executingStepName ++
      "\"). " ++ "Move the sleep outside of ctx.step and make it its own top-level await."
  | .waitForSignalCall _ _ =>
    "ctx.waitForSignal() " ++ "cannot be called inside ctx.step" ++ "(\"" ++ executingStepName ++
      "\"). " ++ "Move the wait outside of ctx.step and make it its own top-level await."

/-- Running the step body while `executingStepName` is set: all three context
operations check the flag first and throw the guard error before any store
interaction (`ctx.sleep` lines 361-367, `ctx.sleepUntil` lines 388-393,
`ctx.waitForSignal` lines 456-461 of `src/client/index.ts`). -/
def runNestedBody (executingStepName : String) (call : InnerCall) : Except String Value :=
  .error (nestedGuardMessage call executingStepName)

/-- Names of the component mutations the worker can invoke, for recording the
call trace of a run. -/
inductive MutName
  | getOrCreateStep
  | completeStep
  | failStep
  | scheduleSleep
  | completeWorkflow
  | failWorkflow
  deriving DecidableEq, Repr

/-- Result of `ctx.step` as seen by the workflow function. -/
inductive StepOutcome
  | returned (v : Option Value)
  | threw (message : String)
  | rejected (e : String)
  deriving DecidableEq, Repr

/-- `ctx.step(stepName, body)` where `body` is a nested context call
(`src/client/index.ts` lines 297-360): `getOrCreateStep`, then the
replay branches, then execute the body with `executingStepName = stepName`;
on a body throw, best-effort `failStep` and rethrow. -/
def ctxStepNested (s : Store) (workflowId : Nat) (workerId : String) (stepName : String)
    (call : InnerCall) (now : Nat) : StepOutcome × Store × List MutName :=
  match getOrCreateStep s workflowId stepName workerId now with
  | .error e => (.rejected e, s, [.getOrCreateStep])
  | .ok (stepInfo, s1) =>
    if stepInfo.isNew = false ∧ stepInfo.status = .completed then
      (.returned stepInfo.output, s1, [.getOrCreateStep])
    else if stepInfo.isNew = false ∧ stepInfo.status = .failed then
      (.threw (stepInfo.error.getD "Step failed"), s1, [.getOrCreateStep])
    else
      match runNestedBody stepName call with
      | .ok result =>
        let (ok, s2) := completeStep s1 stepInfo.stepId workerId result now
        if ok then (.returned (some result), s2, [.getOrCreateStep, .completeStep])
        else
          (.threw "Failed to record step result (claim lost?)", s2,
           [.getOrCreateStep, .completeStep])
      | .error msg =>
        let (_, s2) := failStep s1 stepInfo.stepId workerId msg now
        (.threw msg, s2, [.getOrCreateStep, .failStep])

/-- `executeWorkflow` (`src/client/index.ts` lines 529-581) specialised to a
workflow function consisting of the single nested step: on normal return,
`completeWorkflow`; on a thrown error that is not a sleep/wait sentinel,
`failWorkflow`.  The guard errors are ordinary `Error`s, never sentinels. -/
def executeNestedWorkflow (s : Store) (workflowId : Nat) (workerId : String)
    (stepName : String) (call : InnerCall) (now : Nat) : Store × List MutName :=
  match ctxStepNested s workflowId workerId stepName call now with
  | (.returned v, s1, tr) =>
    let (_, s2) := completeWorkflow s1 workflowId workerId (v.getD .null)
    (s2, tr ++ [.completeWorkflow])
  | (.threw msg, s1, tr) =>
    let (_, s2) := failWorkflow s1 workflowId workerId msg
    (s2, tr ++ [.failWorkflow])
  | (.rejected e, s1, tr) =>
    let (_, s2) := failWorkflow s1 workflowId workerId e
    (s2, tr ++ [.failWorkflow])

/-- Substring containment, used to state "the error message contains ...". -/
def ContainsSub (s sub : String) : Prop :=
  ∃ pre post : String, s = pre ++ (sub ++ post)

/-! ### Invariants -/

/-- The per-row workflow invariant of the spec's data model:
`running ⇔ claimedBy ≠ null`, `claimedBy ≠ null ⇔ leaseExpiresAt ≠ null`,
and `sleeping ⇒ sleepUntil ≠ null`. -/
def WfInv (wf : Workflow) : Prop :=
  (wf.status = .running ↔ wf.claimedBy ≠ none) ∧
    (wf.claimedBy ≠ none ↔ wf.leaseExpiresAt ≠ none) ∧
    (wf.status = .sleeping → wf.sleepUntil ≠ none)

/-- The global store invariant: unique ids below the fresh-id counters,
creation times below the creation counter, and every workflow row
well-formed. -/
structure Inv (s : Store) : Prop where
  wfKeysNodup : (s.workflows.map Prod.fst).Nodup
  stepKeysNodup : (s.steps.map Prod.fst).Nodup
  wfKeysLt : ∀ e ∈ s.workflows, e.1 < s.nextWorkflowId
  stepKeysLt : ∀ e ∈ s.steps, e.1 < s.nextStepId
  ctLt : ∀ e ∈ s.workflows, e.2.creationTime < s.nextCreationTime
  wfRows : ∀ e ∈ s.workflows, WfInv e.2

/-- The memoization certificate of a completed step: the workflow's
`stepIdsByName` maps `name` to `stepId`, whose row is `completed` with the
given output (ids below the fresh-id counters so later inserts cannot shadow
them). -/
def StepDone (s : Store) (workflowId : Nat) (name : String) (stepId : Nat) (out : Value) :
    Prop :=
  workflowId < s.nextWorkflowId ∧ stepId < s.nextStepId ∧
    (∃ wf, getWf s workflowId = some wf ∧ strFind wf.stepIdsByName name = some stepId) ∧
    (∃ st, getStep s stepId = some st ∧ st.status = .completed ∧ st.output = some out)

/-! ## Lemmas about the association tables -/

theorem idFind_idPatch_self {β : Type} (l : List (Nat × β)) (id : Nat) (f : β → β) :
    idFind (idPatch l id f) id = (idFind l id).map f := by
  induction l with
  | nil => rfl
  | cons e rest ih =>
    obtain ⟨i, x⟩ := e
    by_cases h : i = id <;> simp [idFind, idPatch, h, ih]

theorem idFind_idPatch_ne {β : Type} (l : List (Nat × β)) (id id' : Nat) (f : β → β)
    (h : id' ≠ id) : idFind (idPatch l id f) id' = idFind l id' := by
  induction l with
  | nil => rfl
  | cons e rest ih =>
    obtain ⟨i, x⟩ := e
    by_cases hi : i = id
    · subst hi
      simp [idFind, idPatch, Ne.symm h]
    · by_cases hi' : i = id' <;> simp [idFind, idPatch, hi, hi', ih, h]

theorem idFind_append_left {β : Type} (l l' : List (Nat × β)) (id : Nat) {x : β}
    (h : idFind l id = some x) : idFind (l ++ l') id = some x := by
  induction l with
  | nil => simp [idFind] at h
  | cons e rest ih =>
    obtain ⟨i, y⟩ := e
    by_cases hi : i = id <;> simp_all [idFind]

theorem idFind_mem {β : Type} (l : List (Nat × β)) (id : Nat) {x : β}
    (h : idFind l id = some x) : (id, x) ∈ l := by
  induction l with
  | nil => simp [idFind] at h
  | cons e rest ih =>
    obtain ⟨i, y⟩ := e
    by_cases hi : i = id
    · subst hi
      simp [idFind] at h
      simp [h]
    · simp [idFind, hi] at h
      exact List.mem_cons_of_mem _ (ih h)

/-- With unique keys, a member entry is what lookup returns. -/
theorem idFind_of_mem_nodup {β : Type} (l : List (Nat × β)) (id : Nat) {x : β}
    (hnd : (l.map Prod.fst).Nodup) (hmem : (id, x) ∈ l) : idFind l id = some x := by
  induction l with
  | nil => simp at hmem
  | cons e rest ih =>
    obtain ⟨i, y⟩ := e
    simp only [List.map_cons, List.nodup_cons] at hnd
    rcases List.mem_cons.mp hmem with h | h
    · cases h
      simp [idFind]
    · have hi : i ≠ id := by
        intro hid
        subst hid
        exact hnd.1 (List.mem_map.mpr ⟨(i, x), h, rfl⟩)
      simp [idFind, hi]
      exact ih hnd.2 h

theorem idPatch_map_fst {β : Type} (l : List (Nat × β)) (id : Nat) (f : β → β) :
    (idPatch l id f).map Prod.fst = l.map Prod.fst := by
  induction l with
  | nil => rfl
  | cons e rest ih =>
    obtain ⟨i, x⟩ := e
    by_cases h : i = id <;> simp [idPatch, h, ih]

/-- Every entry of a patched table is an old entry, or the patch applied to an
old entry with the patched key. -/
theorem mem_idPatch {β : Type} (l : List (Nat × β)) (id : Nat) (f : β → β) :
    ∀ e ∈ idPatch l id f, e ∈ l ∨ ∃ x, (id, x) ∈ l ∧ e = (id, f x) := by
  induction l with
  | nil => simp [idPatch]
  | cons hd rest ih =>
    obtain ⟨i, x⟩ := hd
    intro e he
    by_cases h : i = id
    · subst h
      simp only [idPatch, if_pos rfl] at he
      rcases List.mem_cons.mp he with h1 | h1
      · exact Or.inr ⟨x, List.mem_cons_self _ _, h1⟩
      · exact Or.inl (List.mem_cons_of_mem _ h1)
    · simp only [idPatch, if_neg h] at he
      rcases List.mem_cons.mp he with h1 | h1
      · exact Or.inl (h1 ▸ List.mem_cons_self _ _)
      · rcases ih e h1 with h2 | ⟨y, hy, he'⟩
        · exact Or.inl (List.mem_cons_of_mem _ h2)
        · exact Or.inr ⟨y, List.mem_cons_of_mem _ hy, he'⟩

theorem strFind_strInsert_self {β : Type} (l : List (String × β)) (k : String) (v : β) :
    strFind (strInsert l k v) k = some v := by
  induction l with
  | nil => simp [strFind, strInsert]
  | cons e rest ih =>
    obtain ⟨k', v'⟩ := e
    by_cases h : k' = k <;> simp [strFind, strInsert, h, ih]

theorem strFind_strInsert_ne {β : Type} (l : List (String × β)) (k k' : String) (v : β)
    (h : k' ≠ k) : strFind (strInsert l k v) k' = strFind l k' := by
  induction l with
  | nil => simp [strFind, strInsert, Ne.symm h]
  | cons e rest ih =>
    obtain ⟨k₀, v₀⟩ := e
    by_cases h0 : k₀ = k
    · subst h0
      simp [strFind, strInsert, Ne.symm h, h]
    · by_cases h1 : k₀ = k' <;> simp [strFind, strInsert, h0, h1, ih, h]

/-! ## Lemmas about store accessors -/

theorem getWf_patchWf_self (s : Store) (id : Nat) (f : Workflow → Workflow) :
    getWf (patchWf s id f) id = (getWf s id).map f :=
  idFind_idPatch_self _ _ _

theorem getWf_patchWf_ne (s : Store) (id id' : Nat) (f : Workflow → Workflow) (h : id' ≠ id) :
    getWf (patchWf s id f) id' = getWf s id' :=
  idFind_idPatch_ne _ _ _ _ h

theorem getStep_patchStep_self (s : Store) (id : Nat) (f : Step → Step) :
    getStep (patchStep s id f) id = (getStep s id).map f :=
  idFind_idPatch_self _ _ _

theorem getStep_patchStep_ne (s : Store) (id id' : Nat) (f : Step → Step) (h : id' ≠ id) :
    getStep (patchStep s id f) id' = getStep s id' :=
  idFind_idPatch_ne _ _ _ _ h

theorem getWf_patchStep (s : Store) (id id' : Nat) (f : Step → Step) :
    getWf (patchStep s id f) id' = getWf s id' := rfl

theorem getStep_patchWf (s : Store) (id id' : Nat) (f : Workflow → Workflow) :
    getStep (patchWf s id f) id' = getStep s id' := rfl

theorem runTrace_reachable (ops : List Op) : Reachable (runTrace ops) :=
  ⟨ops, rfl⟩

/-! ## Lemmas about `pickMin` (the index-scan model) -/

section PickMin

variable {α β : Type} (better : β → β → Bool) (sel : α → Option β)

/-- One fold step of `pickMin`. -/
def pickStep (acc : Option β) (a : α) : Option β :=
  match sel a with
  | none => acc
  | some c =>
    match acc with
    | none => some c
    | some b => if better c b then some c else some b

theorem pickMin_eq_foldl (l : List α) :
    pickMin better sel l = l.foldl (pickStep better sel) none := rfl

theorem pickStep_foldl_mem (l : List α) :
    ∀ acc e, l.foldl (pickStep better sel) acc = some e →
      acc = some e ∨ ∃ a ∈ l, sel a = some e := by
  induction l with
  | nil => intro acc e h; exact Or.inl h
  | cons x l ih =>
    intro acc e h
    rcases ih _ _ h with h1 | ⟨a, ha, hsel⟩
    · rcases hsel : sel x with _ | c
      · simp only [pickStep, hsel] at h1
        exact Or.inl h1
      · rcases acc with _ | b
        · simp only [pickStep, hsel] at h1
          exact Or.inr ⟨x, List.mem_cons_self _ _, hsel.trans h1⟩
        · by_cases hb : better c b
          · simp only [pickStep, hsel, if_pos hb] at h1
            exact Or.inr ⟨x, List.mem_cons_self _ _, hsel.trans h1⟩
          · simp only [pickStep, hsel, if_neg hb] at h1
            exact Or.inl h1
    · exact Or.inr ⟨a, List.mem_cons_of_mem _ ha, hsel⟩

theorem pickMin_mem (l : List α) (e : β) (h : pickMin better sel l = some e) :
    ∃ a ∈ l, sel a = some e := by
  rcases pickStep_foldl_mem better sel l none e h with h1 | h1
  · cases h1
  · exact h1

theorem pickStep_foldl_isSome (l : List α) :
    ∀ acc, (acc.isSome ∨ ∃ a ∈ l, (sel a).isSome) →
      (l.foldl (pickStep better sel) acc).isSome := by
  induction l with
  | nil =>
    intro acc h
    rcases h with h | ⟨a, ha, _⟩
    · exact h
    · simp at ha
  | cons x l ih =>
    intro acc h
    have hsome : (pickStep better sel acc x).isSome ∨ ∃ a ∈ l, (sel a).isSome := by
      rcases h with h | ⟨a, ha, hx⟩
      · left
        unfold pickStep
        rcases hs : sel x with _ | c
        · exact h
        · rcases acc with _ | b
          · rfl
          · by_cases hb : better c b <;> simp [hb]
      · rcases List.mem_cons.mp ha with rfl | ha'
        · left
          unfold pickStep
          rcases hs : sel a with _ | c
          · rw [hs] at hx; cases hx
          · rcases acc with _ | b
            · rfl
            · by_cases hb : better c b <;> simp [hb]
        · exact Or.inr ⟨a, ha', hx⟩
    exact ih _ hsome

theorem pickMin_isSome (l : List α) (a : α) (ha : a ∈ l) (hx : (sel a).isSome) :
    (pickMin better sel l).isSome :=
  pickStep_foldl_isSome better sel l none (Or.inr ⟨a, ha, hx⟩)

theorem pickMin_none (l : List α) (h : pickMin better sel l = none) :
    ∀ a ∈ l, sel a = none := by
  intro a ha
  rcases hs : sel a with _ | c
  · rfl
  · have := pickMin_isSome better sel l a ha (by rw [hs]; rfl)
    rw [h] at this
    cases this

/-- The generic minimality lemma.  `hirr`, `hasymm`, `hneg` say that `better`
is a strict weak order (irreflexive, asymmetric, negatively transitive), which
all four index-key comparisons are. -/
theorem pickStep_foldl_min
    (hirr : ∀ a, better a a = false)
    (hasymm : ∀ a b, better a b = true → better b a = false)
    (hneg : ∀ a b c, better a c = true → better a b = true ∨ better b c = true)
    (l : List α) :
    ∀ acc e, l.foldl (pickStep better sel) acc = some e →
      (∀ a ∈ l, ∀ c, sel a = some c → better c e = false) ∧
        (∀ b, acc = some b → better b e = false) := by
  induction l with
  | nil =>
    intro acc e h
    refine ⟨by simp, ?_⟩
    intro b hb
    rw [hb] at h
    cases h
    exact hirr e
  | cons x l ih =>
    intro acc e h
    obtain ⟨A, B⟩ := ih (pickStep better sel acc x) e h
    constructor
    · intro a ha c hc
      rcases List.mem_cons.mp ha with rfl | ha'
      · -- the head element: its candidate went through `pickStep`
        rcases acc with _ | b
        · simp only [pickStep, hc] at B
          exact B c rfl
        · by_cases hb : better c b
          · simp only [pickStep, hc, if_pos hb] at B
            exact B c rfl
          · simp only [pickStep, hc, if_neg hb] at B
            have hbe := B b rfl
            by_contra hce
            rcases hneg c b e (by simpa using hce) with h1 | h1
            · exact hb h1
            · simp [h1] at hbe
      · exact A a ha' c hc
    · intro b hb
      subst hb
      rcases hs : sel x with _ | c
      · simp only [pickStep, hs] at B
        exact B b rfl
      · by_cases hcb : better c b
        · simp only [pickStep, hs, if_pos hcb] at B
          have hce := B c rfl
          by_contra hbe
          rcases hneg b c e (by simpa using hbe) with h1 | h1
          · have := hasymm c b hcb
            simp [h1] at this
          · simp [h1] at hce
        · simp only [pickStep, hs, if_neg hcb] at B
          exact B b rfl

theorem pickMin_min
    (hirr : ∀ a, better a a = false)
    (hasymm : ∀ a b, better a b = true → better b a = false)
    (hneg : ∀ a b c, better a c = true → better a b = true ∨ better b c = true)
    (l : List α) (e : β) (h : pickMin better sel l = some e) :
    ∀ a ∈ l, ∀ c, sel a = some c → better c e = false :=
  (pickStep_foldl_min better sel hirr hasymm hneg l none e h).1

end PickMin

/-! ## The index-key comparisons are strict weak orders -/

theorem betterByCt_irr (a : Nat × Workflow) : betterByCt a a = false := by
  simp [betterByCt]

theorem betterByCt_asymm (a b : Nat × Workflow) (h : betterByCt a b = true) :
    betterByCt b a = false := by
  rw [Bool.eq_false_iff]
  intro hba
  simp only [betterByCt, decide_eq_true_eq] at h hba
  omega

theorem betterByCt_neg (a b c : Nat × Workflow) (h : betterByCt a c = true) :
    betterByCt a b = true ∨ betterByCt b c = true := by
  simp only [betterByCt, decide_eq_true_eq] at *
  omega

theorem betterBySleepCt_irr (a : Nat × Workflow) : betterBySleepCt a a = false := by
  simp [betterBySleepCt]

theorem betterBySleepCt_asymm (a b : Nat × Workflow) (h : betterBySleepCt a b = true) :
    betterBySleepCt b a = false := by
  rw [Bool.eq_false_iff]
  intro hba
  simp only [betterBySleepCt, Bool.or_eq_true, Bool.and_eq_true, decide_eq_true_eq,
    beq_iff_eq] at h hba
  omega

theorem betterBySleepCt_neg (a b c : Nat × Workflow) (h : betterBySleepCt a c = true) :
    betterBySleepCt a b = true ∨ betterBySleepCt b c = true := by
  simp only [betterBySleepCt, Bool.or_eq_true, Bool.and_eq_true, decide_eq_true_eq,
    beq_iff_eq] at *
  omega

theorem betterByLeaseCt_irr (a : Nat × Workflow) : betterByLeaseCt a a = false := by
  simp [betterByLeaseCt]

theorem betterByLeaseCt_asymm (a b : Nat × Workflow) (h : betterByLeaseCt a b = true) :
    betterByLeaseCt b a = false := by
  rw [Bool.eq_false_iff]
  intro hba
  simp only [betterByLeaseCt, Bool.or_eq_true, Bool.and_eq_true, decide_eq_true_eq,
    beq_iff_eq] at h hba
  omega

theorem betterByLeaseCt_neg (a b c : Nat × Workflow) (h : betterByLeaseCt a c = true) :
    betterByLeaseCt a b = true ∨ betterByLeaseCt b c = true := by
  simp only [betterByLeaseCt, Bool.or_eq_true, Bool.and_eq_true, decide_eq_true_eq,
    beq_iff_eq] at *
  omega

theorem sleepCandLt_irr (a : Nat × Workflow) : sleepCandLt a a = false := by
  unfold sleepCandLt
  rcases a.2.sleepUntil with _ | t <;> simp

theorem sleepCandLt_asymm (a b : Nat × Workflow) (h : sleepCandLt a b = true) :
    sleepCandLt b a = false := by
  rw [Bool.eq_false_iff]
  intro hba
  unfold sleepCandLt at h hba
  split at h <;> split at hba <;> simp_all <;> omega

theorem sleepCandLt_neg (a b c : Nat × Workflow) (h : sleepCandLt a c = true) :
    sleepCandLt a b = true ∨ sleepCandLt b c = true := by
  unfold sleepCandLt at *
  rcases hsa : a.2.sleepUntil with _ | ta <;> rcases hsb : b.2.sleepUntil with _ | tb <;>
    rcases hsc : c.2.sleepUntil with _ | tc <;> simp_all <;> omega

/-! ## Lemmas about `selectMin` -/

theorem selectMin_mem (better : (Nat × Workflow) → (Nat × Workflow) → Bool)
    (p : (Nat × Workflow) → Bool) (l : List (Nat × Workflow)) (e : Nat × Workflow)
    (h : selectMin better p l = some e) : e ∈ l ∧ p e = true := by
  obtain ⟨a, ha, hsel⟩ := pickMin_mem _ _ l e h
  by_cases hp : p a
  · simp only [if_pos hp] at hsel
    cases hsel
    exact ⟨ha, hp⟩
  · simp only [if_neg hp] at hsel
    cases hsel

theorem selectMin_isSome (better : (Nat × Workflow) → (Nat × Workflow) → Bool)
    (p : (Nat × Workflow) → Bool) (l : List (Nat × Workflow)) (e : Nat × Workflow)
    (he : e ∈ l) (hp : p e = true) : (selectMin better p l).isSome :=
  pickMin_isSome _ _ l e he (by simp [hp])

theorem selectMin_none (better : (Nat × Workflow) → (Nat × Workflow) → Bool)
    (p : (Nat × Workflow) → Bool) (l : List (Nat × Workflow))
    (h : selectMin better p l = none) : ∀ e ∈ l, p e = false := by
  intro e he
  by_contra hp
  have hp' : p e = true := by
    cases hpe : p e
    · exact absurd hpe hp
    · rfl
  have := selectMin_isSome better p l e he hp'
  rw [h] at this
  cases this

theorem selectMin_min (better : (Nat × Workflow) → (Nat × Workflow) → Bool)
    (p : (Nat × Workflow) → Bool)
    (hirr : ∀ a, better a a = false)
    (hasymm : ∀ a b, better a b = true → better b a = false)
    (hneg : ∀ a b c, better a c = true → better a b = true ∨ better b c = true)
    (l : List (Nat × Workflow)) (e : Nat × Workflow)
    (h : selectMin better p l = some e) :
    ∀ x ∈ l, p x = true → better x e = false := by
  intro x hx hp
  exact pickMin_min _ _ hirr hasymm hneg l e h x hx x (by simp [hp])

theorem legacyScan_mem (now : Nat) (p : (Nat × Workflow) → Bool) (l : List (Nat × Workflow))
    (e : Nat × Workflow) (h : legacyScan now p l = some e) :
    e ∈ l ∧ isLegacyRow now e = true := by
  unfold legacyScan at h
  have hp := List.find?_some h
  have hmem := List.mem_of_find?_eq_some h
  have hmem2 : e ∈ (l.filter p).mergeSort (fun a b => a.2.creationTime ≤ b.2.creationTime) :=
    List.take_subset _ _ hmem
  have hmem3 : e ∈ l.filter p :=
    (List.mergeSort_perm (l.filter p) _).subset hmem2
  exact ⟨List.mem_of_mem_filter hmem3, hp⟩

/-! ## Preservation of the store invariant -/

theorem mem_unique_of_nodup {β : Type} {l : List (Nat × β)}
    (hnd : (l.map Prod.fst).Nodup) {id : Nat} {a b : β}
    (ha : (id, a) ∈ l) (hb : (id, b) ∈ l) : a = b := by
  have h1 := idFind_of_mem_nodup l id hnd ha
  have h2 := idFind_of_mem_nodup l id hnd hb
  rw [h1] at h2
  exact (Option.some.injEq _ _).mp h2

theorem getWf_eq_of_mem {s : Store} (h : Inv s) {id : Nat} {wf wf' : Workflow}
    (hget : getWf s id = some wf) (hmem : (id, wf') ∈ s.workflows) : wf' = wf :=
  mem_unique_of_nodup h.wfKeysNodup hmem (idFind_mem _ _ hget)

/-- Patching one workflow row preserves the invariant as long as the patch
preserves creation time and well-formedness of the patched row. -/
theorem Inv.patchWf_pres {s : Store} (h : Inv s) (id : Nat) (f : Workflow → Workflow)
    (hct : ∀ wf, (f wf).creationTime = wf.creationTime)
    (hwf : ∀ wf, (id, wf) ∈ s.workflows → WfInv wf → WfInv (f wf)) :
    Inv (patchWf s id f) := by
  refine ⟨?_, h.stepKeysNodup, ?_, h.stepKeysLt, ?_, ?_⟩
  · show ((idPatch s.workflows id f).map Prod.fst).Nodup
    rw [idPatch_map_fst]
    exact h.wfKeysNodup
  · intro e he
    rcases mem_idPatch s.workflows id f e he with h1 | ⟨x, hx, rfl⟩
    · exact h.wfKeysLt e h1
    · exact h.wfKeysLt (id, x) hx
  · intro e he
    rcases mem_idPatch s.workflows id f e he with h1 | ⟨x, hx, rfl⟩
    · exact h.ctLt e h1
    · show (f x).creationTime < s.nextCreationTime
      rw [hct]
      exact h.ctLt _ hx
  · intro e he
    rcases mem_idPatch s.workflows id f e he with h1 | ⟨x, hx, rfl⟩
    · exact h.wfRows e h1
    · exact hwf x hx (h.wfRows _ hx)

/-- Patching a step row preserves the invariant unconditionally (there are no
per-row step invariants). -/
theorem Inv.patchStep_pres {s : Store} (h : Inv s) (id : Nat) (f : Step → Step) :
    Inv (patchStep s id f) := by
  refine ⟨h.wfKeysNodup, ?_, h.wfKeysLt, ?_, h.ctLt, h.wfRows⟩
  · show ((idPatch s.steps id f).map Prod.fst).Nodup
    rw [idPatch_map_fst]
    exact h.stepKeysNodup
  · intro e he
    rcases mem_idPatch s.steps id f e he with h1 | ⟨x, hx, rfl⟩
    · exact h.stepKeysLt e h1
    · exact h.stepKeysLt (id, x) hx

/-! Well-formedness of the individual patches. -/

theorem wfInv_claimPendingPatch (w : String) (now : Nat) (wf : Workflow) :
    WfInv (claimPendingPatch w now wf) := by
  simp [WfInv, claimPendingPatch]

theorem wfInv_claimSleeperPatch (w : String) (now : Nat) (wf : Workflow) :
    WfInv (claimSleeperPatch w now wf) := by
  simp [WfInv, claimSleeperPatch]

theorem wfInv_claimExpiredPatch (w : String) (now : Nat) (wf : Workflow)
    (h : wf.status = .running) : WfInv (claimExpiredPatch w now wf) := by
  simp [WfInv, claimExpiredPatch, h]

/-- The invariant holds in the empty store. -/
theorem inv_init : Inv Store.init := by
  refine ⟨?_, ?_, ?_, ?_, ?_, ?_⟩ <;> simp [Store.init]

/-- A successful `getOrCreateStep` preserves the store invariant. -/
theorem getOrCreateStep_inv {s : Store} (h : Inv s) (id : Nat) (n w : String) (now : Nat)
    {info : StepInfo} {s' : Store} (heq : getOrCreateStep s id n w now = .ok (info, s')) :
    Inv s' := by
  have hcreate :
      Inv { s with
              steps := s.steps ++ [(s.nextStepId,
                { workflowId := id, name := n, status := .running, attempts := 1,
                  startedAt := some now : Step})]
              nextStepId := s.nextStepId + 1 } := by
    refine ⟨h.wfKeysNodup, ?_, h.wfKeysLt, ?_, h.ctLt, h.wfRows⟩
    · simp only [List.map_append, List.map_cons, List.map_nil]
      rw [List.nodup_append]
      refine ⟨h.stepKeysNodup, List.nodup_singleton _, ?_⟩
      intro a ha hb
      simp only [List.mem_singleton] at hb
      subst hb
      obtain ⟨e, he, hfst⟩ := List.mem_map.mp ha
      have := h.stepKeysLt e he
      omega
    · intro e he
      rcases List.mem_append.mp he with h1 | h1
      · have := h.stepKeysLt e h1
        simp only []
        omega
      · simp only [List.mem_singleton] at h1
        subst h1
        simp
  have hpatched :=
    hcreate.patchWf_pres id
      (fun w0 => { w0 with stepIdsByName := strInsert w0.stepIdsByName n s.nextStepId })
      (fun wf0 => rfl)
      (fun wf0 _ hwf0 => by
        obtain ⟨h1, h2, h3⟩ := hwf0
        exact ⟨h1, h2, h3⟩)
  unfold getOrCreateStep at heq
  split at heq
  · cases heq
  · split at heq
    · split at heq
      · split at heq
        · cases heq
          exact h
        · cases heq
          exact hpatched
      · cases heq
        exact hpatched
    · cases heq

/-- Every operation preserves the store invariant. -/
theorem inv_apply {s : Store} (h : Inv s) (op : Op) : Inv (s.apply op) := by
  cases op with
  | startWorkflow n input =>
    show Inv (startWorkflow s n input).2
    unfold startWorkflow
    refine ⟨?_, h.stepKeysNodup, ?_, h.stepKeysLt, ?_, ?_⟩
    · simp only [List.map_append, List.map_cons, List.map_nil]
      rw [List.nodup_append]
      refine ⟨h.wfKeysNodup, List.nodup_singleton _, ?_⟩
      intro a ha hb
      simp only [List.mem_singleton] at hb
      subst hb
      obtain ⟨e, he, hfst⟩ := List.mem_map.mp ha
      have := h.wfKeysLt e he
      omega
    · intro e he
      rcases List.mem_append.mp he with h1 | h1
      · have := h.wfKeysLt e h1
        simp only []
        omega
      · simp only [List.mem_singleton] at h1
        subst h1
        simp
    · intro e he
      rcases List.mem_append.mp he with h1 | h1
      · have := h.ctLt e h1
        simp only []
        omega
      · simp only [List.mem_singleton] at h1
        subst h1
        simp
    · intro e he
      rcases List.mem_append.mp he with h1 | h1
      · exact h.wfRows e h1
      · simp only [List.mem_singleton] at h1
        subst h1
        simp [WfInv]
  | claimWorkflow names w now =>
    show Inv (claimWorkflow s names w now).2
    unfold claimWorkflow
    split
    · -- wildcard branch
      split
      · next e heq =>
        obtain ⟨hmem, hp⟩ := selectMin_mem _ _ _ _ heq
        exact h.patchWf_pres _ _ (fun wf => rfl) fun wf hm _ =>
          wfInv_claimPendingPatch w now wf
      · split
        · next e heq =>
          exact h.patchWf_pres _ _ (fun wf => rfl) fun wf hm _ =>
            wfInv_claimSleeperPatch w now wf
        · split
          · next e heq =>
            obtain ⟨hmem, hp⟩ := selectMin_mem _ _ _ _ heq
            refine h.patchWf_pres _ _ (fun wf => rfl) fun wf hm _ => ?_
            have hwf : wf = e.2 := mem_unique_of_nodup h.wfKeysNodup hm (by exact hmem)
            subst hwf
            apply wfInv_claimExpiredPatch
            simp only [isExpiredRow, Bool.and_eq_true, beq_iff_eq] at hp
            exact hp.1
          · split
            · next e heq =>
              obtain ⟨hmem, hp⟩ := legacyScan_mem _ _ _ _ heq
              refine h.patchWf_pres _ _ (fun wf => rfl) fun wf hm _ => ?_
              have hwf : wf = e.2 := mem_unique_of_nodup h.wfKeysNodup hm (by exact hmem)
              subst hwf
              apply wfInv_claimExpiredPatch
              simp only [isLegacyRow, Bool.and_eq_true, beq_iff_eq] at hp
              exact hp.1.1
            · exact h
    · -- per-name branch
      split
      · next e heq =>
        exact h.patchWf_pres _ _ (fun wf => rfl) fun wf hm _ =>
          wfInv_claimPendingPatch w now wf
      · split
        · next e heq =>
          exact h.patchWf_pres _ _ (fun wf => rfl) fun wf hm _ =>
            wfInv_claimSleeperPatch w now wf
        · split
          · next e heq =>
            obtain ⟨n, hn, hsel⟩ := pickMin_mem _ _ _ _ heq
            obtain ⟨hmem, hp⟩ := selectMin_mem _ _ _ _ hsel
            refine h.patchWf_pres _ _ (fun wf => rfl) fun wf hm _ => ?_
            have hwf : wf = e.2 := mem_unique_of_nodup h.wfKeysNodup hm (by exact hmem)
            subst hwf
            apply wfInv_claimExpiredPatch
            simp only [Bool.and_eq_true, isExpiredRow, beq_iff_eq] at hp
            exact hp.2.1
          · split
            · next e heq =>
              obtain ⟨n, hn, hsel⟩ := pickMin_mem _ _ _ _ heq
              obtain ⟨hmem, hp⟩ := legacyScan_mem _ _ _ _ hsel
              refine h.patchWf_pres _ _ (fun wf => rfl) fun wf hm _ => ?_
              have hwf : wf = e.2 := mem_unique_of_nodup h.wfKeysNodup hm (by exact hmem)
              subst hwf
              apply wfInv_claimExpiredPatch
              simp only [isLegacyRow, Bool.and_eq_true, beq_iff_eq] at hp
              exact hp.1.1
            · exact h
  | heartbeat id w now =>
    show Inv (heartbeat s id w now).2
    unfold heartbeat
    split
    · exact h
    · next wf hget =>
      split
      · next hclaim =>
        refine h.patchWf_pres _ _ (fun wf0 => rfl) fun wf0 hm hwf0 => ?_
        have hwf : wf0 = wf := getWf_eq_of_mem h hget hm
        subst hwf
        obtain ⟨h1, h2, h3⟩ := hwf0
        have hrun : wf0.status = .running := h1.mpr (by simp [hclaim])
        constructor
        · simpa [hclaim] using h1
        · constructor
          · simp [hclaim]
          · intro hs
            rw [hrun] at hs
            cases hs
      · exact h
  | completeWorkflow id w out =>
    show Inv (completeWorkflow s id w out).2
    unfold completeWorkflow
    split
    · exact h
    · split
      · exact h.patchWf_pres _ _ (fun wf0 => rfl) fun wf0 _ _ => by simp [WfInv]
      · exact h
  | failWorkflow id w err =>
    show Inv (failWorkflow s id w err).2
    unfold failWorkflow
    split
    · exact h
    · split
      · exact h.patchWf_pres _ _ (fun wf0 => rfl) fun wf0 _ _ => by simp [WfInv]
      · exact h
  | sleepWorkflow id w su =>
    show Inv (sleepWorkflow s id w su).2
    unfold sleepWorkflow
    split
    · exact h
    · split
      · exact h.patchWf_pres _ _ (fun wf0 => rfl) fun wf0 _ _ => by simp [WfInv]
      · exact h
  | getOrCreateStep id n w now =>
    show Inv (match getOrCreateStep s id n w now with
      | .ok (_, s') => s'
      | .error _ => s)
    split
    · next p heq =>
      obtain ⟨info, s'⟩ := p
      exact getOrCreateStep_inv h id n w now heq
    · exact h
  | scheduleSleep id sid w su now =>
    show Inv (scheduleSleep s id sid w su now).2
    unfold scheduleSleep
    split
    · exact h
    · split
      · split
        · exact h
        · split
          · dsimp only
            split
            · exact h
            · dsimp only
              split
              · exact (h.patchStep_pres _ _).patchWf_pres _ _ (fun wf0 => rfl)
                  fun wf0 _ _ => by simp [WfInv]
              · exact h.patchWf_pres _ _ (fun wf0 => rfl)
                  fun wf0 _ _ => by simp [WfInv]
          · exact h
      · exact h
  | completeStep sid w out now =>
    show Inv (completeStep s sid w out now).2
    unfold completeStep
    split
    · exact h
    · split
      · split
        · exact h
        · split
          · exact h.patchStep_pres _ _
          · exact h
      · exact h
  | failStep sid w err now =>
    show Inv (failStep s sid w err now).2
    unfold failStep
    split
    · exact h
    · split
      · split
        · exact h
        · split
          · exact h.patchStep_pres _ _
          · exact h
      · exact h
  | waitForSignal id sid w sig =>
    show Inv (waitForSignal s id sid w sig).2
    unfold waitForSignal
    split
    · exact h
    · next wf hget =>
      split
      · split
        · exact h
        · split
          · split
            · exact h.patchWf_pres _ _ (fun wf0 => rfl) fun wf0 hm hwf0 => by
                obtain ⟨h1, h2, h3⟩ := hwf0
                exact ⟨h1, h2, h3⟩
            · exact (h.patchStep_pres _ _).patchWf_pres _ _ (fun wf0 => rfl)
                fun wf0 _ _ => by simp [WfInv]
          · exact h
      · exact h
  | signalWorkflow id sig payload now =>
    show Inv (signalWorkflow s id sig payload now).2
    unfold signalWorkflow
    split
    · exact h
    · next wf hget =>
      split
      · next sid st heq =>
        split
        · next hwaiting =>
          refine (h.patchStep_pres _ _).patchWf_pres _ _ (fun wf0 => rfl)
            fun wf0 hm hwf0 => ?_
          have hmem' : (id, wf0) ∈ s.workflows := by
            simpa [patchStep] using hm
          have hwf : wf0 = wf := getWf_eq_of_mem h hget hmem'
          subst hwf
          obtain ⟨h1, h2, h3⟩ := hwf0
          have hnotrun : wf0.status ≠ .running := by
            rw [hwaiting]
            intro hc
            cases hc
          have hclaim : wf0.claimedBy = none := by
            by_contra hc
            exact hnotrun (h1.mpr hc)
          have hlease : wf0.leaseExpiresAt = none := by
            by_contra hc
            exact hnotrun (h1.mpr (h2.mpr hc))
          constructor
          · simp [hclaim]
          · constructor
            · simp [hclaim, hlease]
            · intro hs
              cases hs
        · exact h.patchWf_pres _ _ (fun wf0 => rfl) fun wf0 hm hwf0 => by
            obtain ⟨h1, h2, h3⟩ := hwf0
            exact ⟨h1, h2, h3⟩
      · exact h.patchWf_pres _ _ (fun wf0 => rfl) fun wf0 hm hwf0 => by
          obtain ⟨h1, h2, h3⟩ := hwf0
          exact ⟨h1, h2, h3⟩

/-- The invariant holds in every reachable store. -/
theorem reachable_inv {s : Store} (h : Reachable s) : Inv s := by
  obtain ⟨ops, rfl⟩ := h
  induction ops using List.reverseRecOn with
  | nil => exact inv_init
  | append_singleton ops op ih =>
    rw [List.foldl_append]
    exact inv_apply ih op

/-! ## Claim C7 -/

/-- C7: every store operation preserves, on every workflow row reachable from
the empty store, `status = running ⇔ claimedBy ≠ null ∧ leaseExpiresAt ≠ null`
and `status = sleeping ⇒ sleepUntil ≠ null ∧ claimedBy = null`. -/
theorem claim7_workflow_invariants {s : Store} (h : Reachable s) :
    ∀ e ∈ s.workflows,
      (e.2.status = .running ↔ e.2.claimedBy ≠ none ∧ e.2.leaseExpiresAt ≠ none) ∧
        (e.2.status = .sleeping → e.2.sleepUntil ≠ none ∧ e.2.claimedBy = none) := by
  intro e he
  obtain ⟨h1, h2, h3⟩ := (reachable_inv h).wfRows e he
  constructor
  · constructor
    · intro hr
      exact ⟨h1.mp hr, h2.mp (h1.mp hr)⟩
    · intro hcl
      exact h1.mpr hcl.1
  · intro hs
    refine ⟨h3 hs, ?_⟩
    by_contra hc
    have hr : e.2.status = .running := h1.mpr hc
    rw [hs] at hr
    cases hr

theorem claim7_witness :
    Reachable (runTrace [Op.startWorkflow "a" Value.null,
      Op.claimWorkflow ["a"] "w1" 0]) ∧
      ∀ e ∈ (runTrace [Op.startWorkflow "a" Value.null,
          Op.claimWorkflow ["a"] "w1" 0]).workflows,
        (e.2.status = .running ↔ e.2.claimedBy ≠ none ∧ e.2.leaseExpiresAt ≠ none) ∧
          (e.2.status = .sleeping → e.2.sleepUntil ≠ none ∧ e.2.claimedBy = none) :=
  ⟨runTrace_reachable _, claim7_workflow_invariants (runTrace_reachable _)⟩

/-! ## Claim C6 -/

/-- C6: `scheduleSleep` returns `false` and changes nothing unless the
workflow is `running` and claimed by `workerId`, the step belongs to it and is
`running`, and the effective wake time (the step's stored `sleepUntil` if set,
else the argument) is `> now`; otherwise, in one transaction, it writes
`step.sleepUntil` only if it was unset and puts the workflow to sleep with
that wake time, clearing the claim fields. -/
theorem claim6_scheduleSleep (s : Store) (workflowId stepId : Nat) (w : String)
    (sleepUntilArg now : Nat) :
    (¬ (∃ wf st, getWf s workflowId = some wf ∧ wf.status = .running ∧
          wf.claimedBy = some w ∧ getStep s stepId = some st ∧ st.workflowId = workflowId ∧
          st.status = .running ∧ now < st.sleepUntil.getD sleepUntilArg) →
        scheduleSleep s workflowId stepId w sleepUntilArg now = (false, s)) ∧
    (∀ wf st, getWf s workflowId = some wf → wf.status = .running →
        wf.claimedBy = some w → getStep s stepId = some st → st.workflowId = workflowId →
        st.status = .running → now < st.sleepUntil.getD sleepUntilArg →
        (scheduleSleep s workflowId stepId w sleepUntilArg now).1 = true ∧
        getStep (scheduleSleep s workflowId stepId w sleepUntilArg now).2 stepId =
          some { st with sleepUntil := some (st.sleepUntil.getD sleepUntilArg) } ∧
        getWf (scheduleSleep s workflowId stepId w sleepUntilArg now).2 workflowId =
          some { wf with
                   status := .sleeping
                   sleepUntil := some (st.sleepUntil.getD sleepUntilArg)
                   claimedBy := none
                   claimedAt := none
                   leaseExpiresAt := none } ∧
        (∀ j, j ≠ stepId →
          getStep (scheduleSleep s workflowId stepId w sleepUntilArg now).2 j = getStep s j) ∧
        (∀ j, j ≠ workflowId →
          getWf (scheduleSleep s workflowId stepId w sleepUntilArg now).2 j = getWf s j)) := by
  constructor
  · intro hn
    unfold scheduleSleep
    split
    · rfl
    · next wf hget =>
      split
      · next hguard =>
        split
        · rfl
        · next st hst =>
          split
          · next hstg =>
            dsimp only
            split
            · rfl
            · next hlate =>
              exact absurd
                ⟨wf, st, hget, hguard.1, hguard.2, hst, hstg.1, hstg.2, by omega⟩ hn
          · rfl
      · rfl
  · intro wf st hget hrun hclaim hst hstwf hstrun hfuture
    unfold scheduleSleep
    rw [hget]
    dsimp only
    rw [if_pos ⟨hrun, hclaim⟩, hst]
    try dsimp only
    rw [if_pos ⟨hstwf, hstrun⟩]
    try dsimp only
    rw [if_neg (by omega : ¬ st.sleepUntil.getD sleepUntilArg ≤ now)]
    rcases hsu : st.sleepUntil with _ | v
    · rw [if_pos rfl]
      dsimp only
      refine ⟨rfl, ?_, ?_, ?_, ?_⟩
      · rw [getStep_patchWf, getStep_patchStep_self, hst]
        simp [hsu]
      · rw [getWf_patchWf_self, getWf_patchStep, hget]
        simp [hsu]
      · intro j hj
        rw [getStep_patchWf, getStep_patchStep_ne _ _ _ _ hj]
      · intro j hj
        rw [getWf_patchWf_ne _ _ _ _ hj, getWf_patchStep]
    · rw [if_neg (by simp)]
      dsimp only
      refine ⟨rfl, ?_, ?_, ?_, ?_⟩
      · rw [getStep_patchWf, hst]
        have hrec : ({ st with sleepUntil := some v } : Step) = st := by
          rcases st with ⟨⟩
          simp_all
        simp [hrec]
      · rw [getWf_patchWf_self, hget]
        simp [hsu]
      · intro j hj
        rw [getStep_patchWf]
      · intro j hj
        rw [getWf_patchWf_ne _ _ _ _ hj]

/-! ## Claim C3 -/

/-- C3: whenever a pending workflow matching the name filter exists
(every name when the filter contains the wildcard `"*"`), `claimWorkflow`
selects the matching pending workflow with minimal `creationTime`, transitions
it to `running` with `claimedBy = workerId`, `claimedAt = now`,
`leaseExpiresAt = now + 30000`, returns its `{workflowId, name, input}`, and
touches nothing else — so one worker steadily claiming and completing drains
pending workflows in creation-time (start-commit) order. -/
theorem claim3_claim_pending_fifo {s : Store} (hreach : Reachable s)
    (names : List String) (w : String) (now : Nat)
    (hpend : ∃ e ∈ s.workflows, e.2.status = .pending ∧
      (names.contains ALL_WORKFLOWS = true ∨ names.contains e.2.name = true)) :
    ∃ i wf, (i, wf) ∈ s.workflows ∧ wf.status = .pending ∧
      (names.contains ALL_WORKFLOWS = true ∨ names.contains wf.name = true) ∧
      (∀ e ∈ s.workflows, e.2.status = .pending →
        (names.contains ALL_WORKFLOWS = true ∨ names.contains e.2.name = true) →
        wf.creationTime ≤ e.2.creationTime) ∧
      (claimWorkflow s names w now).1 = some ⟨i, wf.name, wf.input⟩ ∧
      getWf (claimWorkflow s names w now).2 i =
        some { wf with
                 status := .running
                 claimedBy := some w
                 claimedAt := some now
                 leaseExpiresAt := some (now + CLAIM_TIMEOUT_MS) } ∧
      (∀ j, j ≠ i → getWf (claimWorkflow s names w now).2 j = getWf s j) ∧
      (claimWorkflow s names w now).2.steps = s.steps := by
  obtain ⟨e0, he0, hp0, hm0⟩ := hpend
  have hinv := reachable_inv hreach
  by_cases hall : names.contains ALL_WORKFLOWS = true
  · have hsome : (selectMin betterByCt isPendingRow s.workflows).isSome :=
      selectMin_isSome _ _ _ e0 he0 (by simp [isPendingRow, hp0])
    rcases hsel : selectMin betterByCt isPendingRow s.workflows with _ | e
    · rw [hsel] at hsome
      cases hsome
    · obtain ⟨hmem, hpe⟩ := selectMin_mem _ _ _ _ hsel
      simp only [isPendingRow, beq_iff_eq] at hpe
      have hmin := selectMin_min betterByCt isPendingRow betterByCt_irr betterByCt_asymm
        betterByCt_neg _ _ hsel
      have hres : claimWorkflow s names w now =
          (some (claimResultOf e), patchWf s e.1 (claimPendingPatch w now)) := by
        unfold claimWorkflow
        rw [if_pos hall, hsel]
      have hg : getWf s e.1 = some e.2 :=
        idFind_of_mem_nodup _ _ hinv.wfKeysNodup hmem
      refine ⟨e.1, e.2, hmem, hpe, Or.inl hall, ?_, ?_, ?_, ?_, ?_⟩
      · intro x hx hpx _
        have := hmin x hx (by simp [isPendingRow, hpx])
        simp only [betterByCt, decide_eq_false_iff_not] at this
        omega
      · rw [hres]
        rfl
      · rw [hres]
        show getWf (patchWf s e.1 (claimPendingPatch w now)) e.1 = _
        rw [getWf_patchWf_self, hg]
        rfl
      · intro j hj
        rw [hres]
        exact getWf_patchWf_ne _ _ _ _ hj
      · rw [hres]
        rfl
  · have hm0' : names.contains e0.2.name = true := by
      rcases hm0 with h | h
      · exact absurd h hall
      · exact h
    have hn0 : e0.2.name ∈ names := List.mem_of_elem_eq_true hm0'
    have hsome : (bestAcrossNames names
        (fun n => selectMin betterByCt (fun e => nameIs n e && isPendingRow e) s.workflows)
        betterByCt).isSome :=
      pickMin_isSome _ _ _ e0.2.name hn0 (by
        have := selectMin_isSome betterByCt
          (fun e => nameIs e0.2.name e && isPendingRow e) s.workflows e0 he0
          (by simp [nameIs, isPendingRow, hp0])
        exact this)
    rcases hbest : bestAcrossNames names
        (fun n => selectMin betterByCt (fun e => nameIs n e && isPendingRow e) s.workflows)
        betterByCt with _ | e
    · rw [hbest] at hsome
      cases hsome
    · obtain ⟨n0, hn0mem, hseln0⟩ := pickMin_mem _ _ _ _ hbest
      obtain ⟨hmem, hpe⟩ := selectMin_mem _ _ _ _ hseln0
      simp only [Bool.and_eq_true, nameIs, isPendingRow, beq_iff_eq] at hpe
      have hbestmin := pickMin_min betterByCt
        (fun n => selectMin betterByCt (fun e => nameIs n e && isPendingRow e) s.workflows)
        betterByCt_irr betterByCt_asymm betterByCt_neg _ _ hbest
      have hres : claimWorkflow s names w now =
          (some (claimResultOf e), patchWf s e.1 (claimPendingPatch w now)) := by
        unfold claimWorkflow
        rw [if_neg hall, hbest]
      have hg : getWf s e.1 = some e.2 :=
        idFind_of_mem_nodup _ _ hinv.wfKeysNodup hmem
      refine ⟨e.1, e.2, hmem, hpe.2, Or.inr (by
        rw [hpe.1]
        exact List.elem_eq_true_of_mem hn0mem), ?_, ?_, ?_, ?_, ?_⟩
      · intro x hx hpx hmx
        have hmx' : names.contains x.2.name = true := by
          rcases hmx with h | h
          · exact absurd h hall
          · exact h
        have hnx : x.2.name ∈ names := List.mem_of_elem_eq_true hmx'
        have hsx : (selectMin betterByCt
            (fun e => nameIs x.2.name e && isPendingRow e) s.workflows).isSome :=
          selectMin_isSome _ _ _ x hx (by simp [nameIs, isPendingRow, hpx])
        rcases hselx : selectMin betterByCt
            (fun e => nameIs x.2.name e && isPendingRow e) s.workflows with _ | c
        · rw [hselx] at hsx
          cases hsx
        · have h1 := selectMin_min betterByCt _ betterByCt_irr betterByCt_asymm
            betterByCt_neg _ _ hselx x hx (by simp [nameIs, isPendingRow, hpx])
          have h2 := hbestmin x.2.name hnx c hselx
          simp only [betterByCt, decide_eq_false_iff_not] at h1 h2
          omega
      · rw [hres]
        rfl
      · rw [hres]
        show getWf (patchWf s e.1 (claimPendingPatch w now)) e.1 = _
        rw [getWf_patchWf_self, hg]
        rfl
      · intro j hj
        rw [hres]
        exact getWf_patchWf_ne _ _ _ _ hj
      · rw [hres]
        rfl

theorem claim3_witness :
    ∃ i wf,
      (i, wf) ∈ (runTrace [Op.startWorkflow "b" (Value.int 1),
        Op.startWorkflow "a" (Value.int 2)]).workflows ∧
      wf.status = .pending ∧
      ((["a", "b"] : List String).contains ALL_WORKFLOWS = true ∨
        (["a", "b"] : List String).contains wf.name = true) ∧
      (∀ e ∈ (runTrace [Op.startWorkflow "b" (Value.int 1),
          Op.startWorkflow "a" (Value.int 2)]).workflows, e.2.status = .pending →
        ((["a", "b"] : List String).contains ALL_WORKFLOWS = true ∨
          (["a", "b"] : List String).contains e.2.name = true) →
        wf.creationTime ≤ e.2.creationTime) ∧
      (claimWorkflow (runTrace [Op.startWorkflow "b" (Value.int 1),
        Op.startWorkflow "a" (Value.int 2)]) ["a", "b"] "w1" 7).1 =
        some ⟨i, wf.name, wf.input⟩ ∧
      getWf (claimWorkflow (runTrace [Op.startWorkflow "b" (Value.int 1),
        Op.startWorkflow "a" (Value.int 2)]) ["a", "b"] "w1" 7).2 i =
        some { wf with
                 status := .running
                 claimedBy := some "w1"
                 claimedAt := some 7
                 leaseExpiresAt := some (7 + CLAIM_TIMEOUT_MS) } ∧
      (∀ j, j ≠ i → getWf (claimWorkflow (runTrace [Op.startWorkflow "b" (Value.int 1),
        Op.startWorkflow "a" (Value.int 2)]) ["a", "b"] "w1" 7).2 j =
        getWf (runTrace [Op.startWorkflow "b" (Value.int 1),
          Op.startWorkflow "a" (Value.int 2)]) j) ∧
      (claimWorkflow (runTrace [Op.startWorkflow "b" (Value.int 1),
        Op.startWorkflow "a" (Value.int 2)]) ["a", "b"] "w1" 7).2.steps =
        (runTrace [Op.startWorkflow "b" (Value.int 1),
          Op.startWorkflow "a" (Value.int 2)]).steps :=
  claim3_claim_pending_fifo (runTrace_reachable _) ["a", "b"] "w1" 7
    ⟨(0, { name := "b", creationTime := 0, status := .pending, input := Value.int 1 }),
      by decide, by decide, Or.inr (by decide)⟩

/-! ## Claim C4 -/

/-- C4 as stated is false on the expired-lease branch: the scanner orders
expired leases by `leaseExpiresAt` (most-expired first), not by
`creationTime`.  Here workflow 0 is older (creationTime 0 < 1) and both
leases are expired at `now = 40000`, yet `claimWorkflow` returns workflow 1,
whose lease (30006) expired before workflow 0's heartbeat-refreshed lease
(30007). -/
theorem claim4_counterexample :
    getWf (runTrace [Op.startWorkflow "a" (Value.int 1),
      Op.startWorkflow "a" (Value.int 2), Op.claimWorkflow ["a"] "w0" 5,
      Op.claimWorkflow ["a"] "w1" 6, Op.heartbeat 0 "w0" 7]) 0 =
      some { name := "a", creationTime := 0, status := .running, input := Value.int 1,
             claimedBy := some "w0", claimedAt := some 7,
             leaseExpiresAt := some 30007 } ∧
    getWf (runTrace [Op.startWorkflow "a" (Value.int 1),
      Op.startWorkflow "a" (Value.int 2), Op.claimWorkflow ["a"] "w0" 5,
      Op.claimWorkflow ["a"] "w1" 6, Op.heartbeat 0 "w0" 7]) 1 =
      some { name := "a", creationTime := 1, status := .running, input := Value.int 2,
             claimedBy := some "w1", claimedAt := some 6,
             leaseExpiresAt := some 30006 } ∧
    (claimWorkflow (runTrace [Op.startWorkflow "a" (Value.int 1),
      Op.startWorkflow "a" (Value.int 2), Op.claimWorkflow ["a"] "w0" 5,
      Op.claimWorkflow ["a"] "w1" 6, Op.heartbeat 0 "w0" 7]) ["a"] "w2" 40000).1 =
      some ⟨1, "a", Value.int 2⟩ :=
  ⟨rfl, rfl, rfl⟩

/-- Arithmetic reading of `betterBySleepCt _ _ = false` on due rows. -/
theorem betterBySleepCt_false_iff (x c : Nat × Workflow) (tx tc : Nat)
    (hx : x.2.sleepUntil = some tx) (hc : c.2.sleepUntil = some tc) :
    betterBySleepCt x c = false ↔
      tc < tx ∨ (tc = tx ∧ c.2.creationTime ≤ x.2.creationTime) := by
  rw [Bool.eq_false_iff]
  simp only [betterBySleepCt, hx, hc, Option.getD_some, ne_eq, Bool.or_eq_true,
    Bool.and_eq_true, decide_eq_true_eq, beq_iff_eq, not_or, not_and, not_lt]
  constructor <;> intro h <;> omega

/-- Arithmetic reading of `sleepCandLt _ _ = false` on due rows. -/
theorem sleepCandLt_false_iff (c e : Nat × Workflow) (tc te : Nat)
    (hc : c.2.sleepUntil = some tc) (he : e.2.sleepUntil = some te) :
    sleepCandLt c e = false ↔
      te < tc ∨ (te = tc ∧ e.2.creationTime ≤ c.2.creationTime) := by
  rw [Bool.eq_false_iff]
  unfold sleepCandLt
  rw [hc, he]
  simp only [ne_eq, Bool.or_eq_true, Bool.and_eq_true, decide_eq_true_eq, beq_iff_eq,
    not_or, not_and, not_lt]
  constructor <;> intro h <;> omega

/-- Arithmetic reading of `betterByLeaseCt _ _ = false` on leased rows. -/
theorem betterByLeaseCt_false_iff (x c : Nat × Workflow) (lx lc : Nat)
    (hx : x.2.leaseExpiresAt = some lx) (hc : c.2.leaseExpiresAt = some lc) :
    betterByLeaseCt x c = false ↔
      lc < lx ∨ (lc = lx ∧ c.2.creationTime ≤ x.2.creationTime) := by
  rw [Bool.eq_false_iff]
  simp only [betterByLeaseCt, hx, hc, Option.getD_some, ne_eq, Bool.or_eq_true,
    Bool.and_eq_true, decide_eq_true_eq, beq_iff_eq, not_or, not_and, not_lt]
  constructor <;> intro h <;> omega

/-- C4 (amended): when no matching pending workflow exists, a matching due
sleeper is always chosen before any expired lease, with minimal
`(sleepUntil, creationTime)` among matching due sleepers; and when only
expired leases remain, the transition is lease renewal only (`status` stays
`running`, new `claimedBy`, fresh lease), but the selection is most-expired
first — minimal `(leaseExpiresAt, creationTime)` globally under the wildcard,
and per name with the oldest `creationTime` across the per-name most-expired
candidates — not oldest `creationTime` overall. -/
theorem claim4_sleeper_then_expired {s : Store} (hreach : Reachable s)
    (names : List String) (w : String) (now : Nat)
    (hnopend : ∀ e ∈ s.workflows, e.2.status = .pending →
      (names.contains ALL_WORKFLOWS = true ∨ names.contains e.2.name = true) → False) :
    ((∃ e ∈ s.workflows, e.2.status = .sleeping ∧ (∃ t, e.2.sleepUntil = some t ∧ t ≤ now) ∧
        (names.contains ALL_WORKFLOWS = true ∨ names.contains e.2.name = true)) →
      ∃ i wf te, (i, wf) ∈ s.workflows ∧ wf.status = .sleeping ∧ wf.sleepUntil = some te ∧
        te ≤ now ∧
        (names.contains ALL_WORKFLOWS = true ∨ names.contains wf.name = true) ∧
        (∀ x ∈ s.workflows, x.2.status = .sleeping →
          (names.contains ALL_WORKFLOWS = true ∨ names.contains x.2.name = true) →
          ∀ tx, x.2.sleepUntil = some tx → tx ≤ now →
          te < tx ∨ (te = tx ∧ wf.creationTime ≤ x.2.creationTime)) ∧
        (claimWorkflow s names w now).1 = some ⟨i, wf.name, wf.input⟩ ∧
        getWf (claimWorkflow s names w now).2 i =
          some { wf with
                   status := .running
                   claimedBy := some w
                   claimedAt := some now
                   leaseExpiresAt := some (now + CLAIM_TIMEOUT_MS)
                   sleepUntil := none } ∧
        (∀ j, j ≠ i → getWf (claimWorkflow s names w now).2 j = getWf s j) ∧
        (claimWorkflow s names w now).2.steps = s.steps) ∧
    ((∀ e ∈ s.workflows, e.2.status = .sleeping →
        (names.contains ALL_WORKFLOWS = true ∨ names.contains e.2.name = true) →
        ∀ t, e.2.sleepUntil = some t → now < t) →
      (∃ e ∈ s.workflows, e.2.status = .running ∧
        (∃ l, e.2.leaseExpiresAt = some l ∧ l < now) ∧
        (names.contains ALL_WORKFLOWS = true ∨ names.contains e.2.name = true)) →
      ∃ i wf le, (i, wf) ∈ s.workflows ∧ wf.status = .running ∧
        wf.leaseExpiresAt = some le ∧ le < now ∧
        (names.contains ALL_WORKFLOWS = true ∨ names.contains wf.name = true) ∧
        (claimWorkflow s names w now).1 = some ⟨i, wf.name, wf.input⟩ ∧
        getWf (claimWorkflow s names w now).2 i =
          some { wf with
                   claimedBy := some w
                   claimedAt := some now
                   leaseExpiresAt := some (now + CLAIM_TIMEOUT_MS) } ∧
        (∀ j, j ≠ i → getWf (claimWorkflow s names w now).2 j = getWf s j) ∧
        (claimWorkflow s names w now).2.steps = s.steps ∧
        (names.contains ALL_WORKFLOWS = true →
          ∀ x ∈ s.workflows, x.2.status = .running →
          ∀ lx, x.2.leaseExpiresAt = some lx → lx < now →
          le < lx ∨ (le = lx ∧ wf.creationTime ≤ x.2.creationTime)) ∧
        (names.contains ALL_WORKFLOWS = false →
          (∀ x ∈ s.workflows, x.2.status = .running → x.2.name = wf.name →
            ∀ lx, x.2.leaseExpiresAt = some lx → lx < now →
            le < lx ∨ (le = lx ∧ wf.creationTime ≤ x.2.creationTime)) ∧
          (∀ x ∈ s.workflows, x.2.status = .running →
            names.contains x.2.name = true →
            ∀ lx, x.2.leaseExpiresAt = some lx → lx < now →
            (∀ y ∈ s.workflows, y.2.status = .running → y.2.name = x.2.name →
              ∀ ly, y.2.leaseExpiresAt = some ly → ly < now →
              lx < ly ∨ (lx = ly ∧ x.2.creationTime ≤ y.2.creationTime)) →
            wf.creationTime ≤ x.2.creationTime))) := by
  have hinv := reachable_inv hreach
  constructor
  · -- part (i): due sleepers beat expired leases
    rintro ⟨e0, he0, hs0, ⟨t0, ht0, ht0le⟩, hm0⟩
    by_cases hall : names.contains ALL_WORKFLOWS = true
    · have hpnone : selectMin betterByCt isPendingRow s.workflows = none := by
        rcases hsel : selectMin betterByCt isPendingRow s.workflows with _ | e
        · rfl
        · obtain ⟨hmem, hpe⟩ := selectMin_mem _ _ _ _ hsel
          simp only [isPendingRow, beq_iff_eq] at hpe
          exact (hnopend e hmem hpe (Or.inl hall)).elim
      have hsome : (selectMin betterBySleepCt (isDueSleeperRow now) s.workflows).isSome :=
        selectMin_isSome _ _ _ e0 he0 (by simp [isDueSleeperRow, hs0, ht0, ht0le])
      rcases hsel : selectMin betterBySleepCt (isDueSleeperRow now) s.workflows with _ | e
      · rw [hsel] at hsome
        cases hsome
      · obtain ⟨hmem, hpe⟩ := selectMin_mem _ _ _ _ hsel
        simp only [isDueSleeperRow, Bool.and_eq_true, beq_iff_eq] at hpe
        obtain ⟨hsleep, hpe2⟩ := hpe
        rcases hsu : e.2.sleepUntil with _ | te
        · simp [hsu] at hpe2
        · rw [hsu] at hpe2
          simp only [decide_eq_true_eq] at hpe2
          have hmin := selectMin_min betterBySleepCt (isDueSleeperRow now)
            betterBySleepCt_irr betterBySleepCt_asymm betterBySleepCt_neg _ _ hsel
          have hg : getWf s e.1 = some e.2 :=
            idFind_of_mem_nodup _ _ hinv.wfKeysNodup hmem
          have hres : claimWorkflow s names w now =
              (some (claimResultOf e), patchWf s e.1 (claimSleeperPatch w now)) := by
            unfold claimWorkflow
            rw [if_pos hall, hpnone, hsel]
          refine ⟨e.1, e.2, te, hmem, hsleep, hsu, hpe2, Or.inl hall, ?_, ?_, ?_, ?_, ?_⟩
          · intro x hx hxs _ tx htx htxle
            have hbx := hmin x hx (by simp [isDueSleeperRow, hxs, htx, htxle])
            exact (betterBySleepCt_false_iff x e tx te htx hsu).mp hbx
          · rw [hres]
            rfl
          · rw [hres]
            show getWf (patchWf s e.1 (claimSleeperPatch w now)) e.1 = _
            rw [getWf_patchWf_self, hg]
            rfl
          · intro j hj
            rw [hres]
            exact getWf_patchWf_ne _ _ _ _ hj
          · rw [hres]
            rfl
    · have hm0' : names.contains e0.2.name = true := by
        rcases hm0 with h | h
        · exact absurd h hall
        · exact h
      have hn0 : e0.2.name ∈ names := List.mem_of_elem_eq_true hm0'
      have hpbnone : bestAcrossNames names
          (fun n => selectMin betterByCt (fun e => nameIs n e && isPendingRow e) s.workflows)
          betterByCt = none := by
        rcases hsel : bestAcrossNames names
            (fun n => selectMin betterByCt (fun e => nameIs n e && isPendingRow e) s.workflows)
            betterByCt with _ | e
        · rfl
        · obtain ⟨n1, hn1, hseln1⟩ := pickMin_mem _ _ _ _ hsel
          obtain ⟨hmem, hpe⟩ := selectMin_mem _ _ _ _ hseln1
          simp only [Bool.and_eq_true, nameIs, isPendingRow, beq_iff_eq] at hpe
          exact (hnopend e hmem hpe.2 (Or.inr (by
            rw [hpe.1]
            exact List.elem_eq_true_of_mem hn1))).elim
      have hsome : (bestAcrossNames names
          (fun n =>
            selectMin betterBySleepCt (fun e => nameIs n e && isDueSleeperRow now e)
              s.workflows) sleepCandLt).isSome :=
        pickMin_isSome _ _ _ e0.2.name hn0
          (selectMin_isSome betterBySleepCt _ s.workflows e0 he0
            (by simp [nameIs, isDueSleeperRow, hs0, ht0, ht0le]))
      rcases hbest : bestAcrossNames names
          (fun n =>
            selectMin betterBySleepCt (fun e => nameIs n e && isDueSleeperRow now e)
              s.workflows) sleepCandLt with _ | e
      · rw [hbest] at hsome
        cases hsome
      · obtain ⟨n1, hn1, hseln1⟩ := pickMin_mem _ _ _ _ hbest
        obtain ⟨hmem, hpe⟩ := selectMin_mem _ _ _ _ hseln1
        simp only [Bool.and_eq_true, nameIs, isDueSleeperRow, beq_iff_eq] at hpe
        have hname1 := hpe.1
        have hsleep := hpe.2.1
        have hpe2 := hpe.2.2
        rcases hsu : e.2.sleepUntil with _ | te
        · simp [hsu] at hpe2
        · rw [hsu] at hpe2
          simp only [decide_eq_true_eq] at hpe2
          have hbestmin := pickMin_min sleepCandLt
            (fun n =>
              selectMin betterBySleepCt (fun e => nameIs n e && isDueSleeperRow now e)
                s.workflows)
            sleepCandLt_irr sleepCandLt_asymm sleepCandLt_neg _ _ hbest
          have hg : getWf s e.1 = some e.2 :=
            idFind_of_mem_nodup _ _ hinv.wfKeysNodup hmem
          have hres : claimWorkflow s names w now =
              (some (claimResultOf e), patchWf s e.1 (claimSleeperPatch w now)) := by
            unfold claimWorkflow
            rw [if_neg hall, hpbnone, hbest]
          refine ⟨e.1, e.2, te, hmem, hsleep, hsu, hpe2, Or.inr (by
            rw [hname1]
            exact List.elem_eq_true_of_mem hn1), ?_, ?_, ?_, ?_, ?_⟩
          · intro x hx hxs hmx tx htx htxle
            have hmx' : names.contains x.2.name = true := by
              rcases hmx with h | h
              · exact absurd h hall
              · exact h
            have hnx : x.2.name ∈ names := List.mem_of_elem_eq_true hmx'
            have hsx : (selectMin betterBySleepCt
                (fun e => nameIs x.2.name e && isDueSleeperRow now e) s.workflows).isSome :=
              selectMin_isSome _ _ _ x hx (by simp [nameIs, isDueSleeperRow, hxs, htx, htxle])
            rcases hselx : selectMin betterBySleepCt
                (fun e => nameIs x.2.name e && isDueSleeperRow now e) s.workflows with _ | c
            · rw [hselx] at hsx
              cases hsx
            · obtain ⟨hmemc, hpc⟩ := selectMin_mem _ _ _ _ hselx
              simp only [Bool.and_eq_true, nameIs, isDueSleeperRow, beq_iff_eq] at hpc
              rcases hsuc : c.2.sleepUntil with _ | tc
              · simp [hsuc] at hpc
              · have h1 := selectMin_min betterBySleepCt _
                  betterBySleepCt_irr betterBySleepCt_asymm betterBySleepCt_neg _ _ hselx
                  x hx (by simp [nameIs, isDueSleeperRow, hxs, htx, htxle])
                have h2 := hbestmin x.2.name hnx c hselx
                have h1' := (betterBySleepCt_false_iff x c tx tc htx hsuc).mp h1
                have h2' := (sleepCandLt_false_iff c e tc te hsuc hsu).mp h2
                omega
          · rw [hres]
            rfl
          · rw [hres]
            show getWf (patchWf s e.1 (claimSleeperPatch w now)) e.1 = _
            rw [getWf_patchWf_self, hg]
            rfl
          · intro j hj
            rw [hres]
            exact getWf_patchWf_ne _ _ _ _ hj
          · rw [hres]
            rfl
  · -- part (ii): expired leases, most-expired first, renewal only
    intro hnosleep
    rintro ⟨e0, he0, hr0, ⟨l0, hl0, hl0lt⟩, hm0⟩
    by_cases hall : names.contains ALL_WORKFLOWS = true
    · have hpnone : selectMin betterByCt isPendingRow s.workflows = none := by
        rcases hsel : selectMin betterByCt isPendingRow s.workflows with _ | e
        · rfl
        · obtain ⟨hmem, hpe⟩ := selectMin_mem _ _ _ _ hsel
          simp only [isPendingRow, beq_iff_eq] at hpe
          exact (hnopend e hmem hpe (Or.inl hall)).elim
      have hsnone : selectMin betterBySleepCt (isDueSleeperRow now) s.workflows = none := by
        rcases hsel : selectMin betterBySleepCt (isDueSleeperRow now) s.workflows with _ | e
        · rfl
        · obtain ⟨hmem, hpe⟩ := selectMin_mem _ _ _ _ hsel
          simp only [isDueSleeperRow, Bool.and_eq_true, beq_iff_eq] at hpe
          rcases hsu : e.2.sleepUntil with _ | te
          · simp [hsu] at hpe
          · rw [hsu] at hpe
            simp only [decide_eq_true_eq] at hpe
            have := hnosleep e hmem hpe.1 (Or.inl hall) te hsu
            omega
      have hsome : (selectMin betterByLeaseCt (isExpiredRow now) s.workflows).isSome :=
        selectMin_isSome _ _ _ e0 he0 (by simp [isExpiredRow, hr0, hl0, hl0lt])
      rcases hsel : selectMin betterByLeaseCt (isExpiredRow now) s.workflows with _ | e
      · rw [hsel] at hsome
        cases hsome
      · obtain ⟨hmem, hpe⟩ := selectMin_mem _ _ _ _ hsel
        simp only [isExpiredRow, Bool.and_eq_true, beq_iff_eq] at hpe
        obtain ⟨hrun, hpe2⟩ := hpe
        rcases hle : e.2.leaseExpiresAt with _ | le
        · simp [hle] at hpe2
        · rw [hle] at hpe2
          simp only [decide_eq_true_eq] at hpe2
          have hmin := selectMin_min betterByLeaseCt (isExpiredRow now)
            betterByLeaseCt_irr betterByLeaseCt_asymm betterByLeaseCt_neg _ _ hsel
          have hg : getWf s e.1 = some e.2 :=
            idFind_of_mem_nodup _ _ hinv.wfKeysNodup hmem
          have hres : claimWorkflow s names w now =
              (some (claimResultOf e), patchWf s e.1 (claimExpiredPatch w now)) := by
            unfold claimWorkflow
            rw [if_pos hall, hpnone, hsnone, hsel]
          refine ⟨e.1, e.2, le, hmem, hrun, hle, hpe2, Or.inl hall, ?_, ?_, ?_, ?_, ?_, ?_⟩
          · rw [hres]
            rfl
          · rw [hres]
            show getWf (patchWf s e.1 (claimExpiredPatch w now)) e.1 = _
            rw [getWf_patchWf_self, hg]
            rfl
          · intro j hj
            rw [hres]
            exact getWf_patchWf_ne _ _ _ _ hj
          · rw [hres]
            rfl
          · intro _ x hx hxr lx hlx hlxlt
            have hbx := hmin x hx (by simp [isExpiredRow, hxr, hlx, hlxlt])
            exact (betterByLeaseCt_false_iff x e lx le hlx hle).mp hbx
          · intro hfalse
            rw [hall] at hfalse
            cases hfalse
    · have hm0' : names.contains e0.2.name = true := by
        rcases hm0 with h | h
        · exact absurd h hall
        · exact h
      have hn0 : e0.2.name ∈ names := List.mem_of_elem_eq_true hm0'
      have hpbnone : bestAcrossNames names
          (fun n => selectMin betterByCt (fun e => nameIs n e && isPendingRow e) s.workflows)
          betterByCt = none := by
        rcases hsel : bestAcrossNames names
            (fun n => selectMin betterByCt (fun e => nameIs n e && isPendingRow e) s.workflows)
            betterByCt with _ | e
        · rfl
        · obtain ⟨n1, hn1, hseln1⟩ := pickMin_mem _ _ _ _ hsel
          obtain ⟨hmem, hpe⟩ := selectMin_mem _ _ _ _ hseln1
          simp only [Bool.and_eq_true, nameIs, isPendingRow, beq_iff_eq] at hpe
          exact (hnopend e hmem hpe.2 (Or.inr (by
            rw [hpe.1]
            exact List.elem_eq_true_of_mem hn1))).elim
      have hsbnone : bestAcrossNames names
          (fun n =>
            selectMin betterBySleepCt (fun e => nameIs n e && isDueSleeperRow now e)
              s.workflows) sleepCandLt = none := by
        rcases hsel : bestAcrossNames names
            (fun n =>
              selectMin betterBySleepCt (fun e => nameIs n e && isDueSleeperRow now e)
                s.workflows) sleepCandLt with _ | e
        · rfl
        · obtain ⟨n1, hn1, hseln1⟩ := pickMin_mem _ _ _ _ hsel
          obtain ⟨hmem, hpe⟩ := selectMin_mem _ _ _ _ hseln1
          simp only [Bool.and_eq_true, nameIs, isDueSleeperRow, beq_iff_eq] at hpe
          rcases hsu : e.2.sleepUntil with _ | te
          · simp [hsu] at hpe
          · rw [hsu] at hpe
            simp only [decide_eq_true_eq] at hpe
            have := hnosleep e hmem hpe.2.1 (Or.inr (by
              rw [hpe.1]
              exact List.elem_eq_true_of_mem hn1)) te hsu
            omega
      have hsome : (bestAcrossNames names
          (fun n =>
            selectMin betterByLeaseCt (fun e => nameIs n e && isExpiredRow now e) s.workflows)
          betterByCt).isSome :=
        pickMin_isSome _ _ _ e0.2.name hn0
          (selectMin_isSome betterByLeaseCt _ s.workflows e0 he0
            (by simp [nameIs, isExpiredRow, hr0, hl0, hl0lt]))
      rcases hbest : bestAcrossNames names
          (fun n =>
            selectMin betterByLeaseCt (fun e => nameIs n e && isExpiredRow now e) s.workflows)
          betterByCt with _ | e
      · rw [hbest] at hsome
        cases hsome
      · obtain ⟨n1, hn1, hseln1⟩ := pickMin_mem _ _ _ _ hbest
        obtain ⟨hmem, hpe⟩ := selectMin_mem _ _ _ _ hseln1
        simp only [Bool.and_eq_true, nameIs, isExpiredRow, beq_iff_eq] at hpe
        have hname1 := hpe.1
        have hrun := hpe.2.1
        have hpe2 := hpe.2.2
        rcases hle : e.2.leaseExpiresAt with _ | le
        · simp [hle] at hpe2
        · rw [hle] at hpe2
          simp only [decide_eq_true_eq] at hpe2
          have hbestmin := pickMin_min betterByCt
            (fun n =>
              selectMin betterByLeaseCt (fun e => nameIs n e && isExpiredRow now e)
                s.workflows)
            betterByCt_irr betterByCt_asymm betterByCt_neg _ _ hbest
          have hg : getWf s e.1 = some e.2 :=
            idFind_of_mem_nodup _ _ hinv.wfKeysNodup hmem
          have hres : claimWorkflow s names w now =
              (some (claimResultOf e), patchWf s e.1 (claimExpiredPatch w now)) := by
            unfold claimWorkflow
            rw [if_neg hall, hpbnone, hsbnone, hbest]
          have hallf : names.contains ALL_WORKFLOWS = false := by
            cases hx : names.contains ALL_WORKFLOWS
            · rfl
            · exact absurd hx hall
          refine ⟨e.1, e.2, le, hmem, hrun, hle, hpe2, Or.inr (by
            rw [hname1]
            exact List.elem_eq_true_of_mem hn1), ?_, ?_, ?_, ?_, ?_, ?_⟩
          · rw [hres]
            rfl
          · rw [hres]
            show getWf (patchWf s e.1 (claimExpiredPatch w now)) e.1 = _
            rw [getWf_patchWf_self, hg]
            rfl
          · intro j hj
            rw [hres]
            exact getWf_patchWf_ne _ _ _ _ hj
          · rw [hres]
            rfl
          · intro htrue
            rw [htrue] at hallf
            cases hallf
          · intro _
            constructor
            · -- within the chosen workflow's name group: lex-minimal
              intro x hx hxr hxname lx hlx hlxlt
              have h1 := selectMin_min betterByLeaseCt _
                betterByLeaseCt_irr betterByLeaseCt_asymm betterByLeaseCt_neg _ _ hseln1
                x hx (by
                  simp [nameIs, isExpiredRow, hxr, hlx, hlxlt]
                  rw [hxname, hname1])
              exact (betterByLeaseCt_false_iff x e lx le hlx hle).mp h1
            · -- across name groups: minimal creation time among group minima
              intro x hx hxr hxc lx hlx hlxlt hxmin
              have hnx : x.2.name ∈ names := List.mem_of_elem_eq_true hxc
              have hsx : (selectMin betterByLeaseCt
                  (fun e => nameIs x.2.name e && isExpiredRow now e) s.workflows).isSome :=
                selectMin_isSome _ _ _ x hx (by simp [nameIs, isExpiredRow, hxr, hlx, hlxlt])
              rcases hselx : selectMin betterByLeaseCt
                  (fun e => nameIs x.2.name e && isExpiredRow now e) s.workflows with _ | c
              · rw [hselx] at hsx
                cases hsx
              · obtain ⟨hmemc, hpc⟩ := selectMin_mem _ _ _ _ hselx
                simp only [Bool.and_eq_true, nameIs, isExpiredRow, beq_iff_eq] at hpc
                rcases hlec : c.2.leaseExpiresAt with _ | lc
                · simp [hlec] at hpc
                · rw [hlec] at hpc
                  simp only [decide_eq_true_eq] at hpc
                  have h1 := selectMin_min betterByLeaseCt _
                    betterByLeaseCt_irr betterByLeaseCt_asymm betterByLeaseCt_neg _ _ hselx
                    x hx (by simp [nameIs, isExpiredRow, hxr, hlx, hlxlt])
                  have h1' := (betterByLeaseCt_false_iff x c lx lc hlx hlec).mp h1
                  have h2 := hxmin c hmemc hpc.2.1 hpc.1 lc hlec hpc.2.2
                  have h3 := hbestmin x.2.name hnx c hselx
                  simp only [betterByCt, decide_eq_false_iff_not] at h3
                  omega

theorem claim4_witness :
    ∃ i wf te,
      (i, wf) ∈ (runTrace [Op.startWorkflow "a" (Value.int 3),
        Op.claimWorkflow ["a"] "w0" 0, Op.sleepWorkflow 0 "w0" 100]).workflows ∧
      wf.status = .sleeping ∧ wf.sleepUntil = some te ∧ te ≤ 200 ∧
      ((["a"] : List String).contains ALL_WORKFLOWS = true ∨
        (["a"] : List String).contains wf.name = true) ∧
      (∀ x ∈ (runTrace [Op.startWorkflow "a" (Value.int 3),
          Op.claimWorkflow ["a"] "w0" 0, Op.sleepWorkflow 0 "w0" 100]).workflows,
        x.2.status = .sleeping →
        ((["a"] : List String).contains ALL_WORKFLOWS = true ∨
          (["a"] : List String).contains x.2.name = true) →
        ∀ tx, x.2.sleepUntil = some tx → tx ≤ 200 →
        te < tx ∨ (te = tx ∧ wf.creationTime ≤ x.2.creationTime)) ∧
      (claimWorkflow (runTrace [Op.startWorkflow "a" (Value.int 3),
        Op.claimWorkflow ["a"] "w0" 0, Op.sleepWorkflow 0 "w0" 100]) ["a"] "w2" 200).1 =
        some ⟨i, wf.name, wf.input⟩ ∧
      getWf (claimWorkflow (runTrace [Op.startWorkflow "a" (Value.int 3),
        Op.claimWorkflow ["a"] "w0" 0, Op.sleepWorkflow 0 "w0" 100]) ["a"] "w2" 200).2 i =
        some { wf with
                 status := .running
                 claimedBy := some "w2"
                 claimedAt := some 200
                 leaseExpiresAt := some (200 + CLAIM_TIMEOUT_MS)
                 sleepUntil := none } ∧
      (∀ j, j ≠ i →
        getWf (claimWorkflow (runTrace [Op.startWorkflow "a" (Value.int 3),
          Op.claimWorkflow ["a"] "w0" 0, Op.sleepWorkflow 0 "w0" 100]) ["a"] "w2" 200).2 j =
        getWf (runTrace [Op.startWorkflow "a" (Value.int 3),
          Op.claimWorkflow ["a"] "w0" 0, Op.sleepWorkflow 0 "w0" 100]) j) ∧
      (claimWorkflow (runTrace [Op.startWorkflow "a" (Value.int 3),
        Op.claimWorkflow ["a"] "w0" 0, Op.sleepWorkflow 0 "w0" 100]) ["a"] "w2" 200).2.steps =
        (runTrace [Op.startWorkflow "a" (Value.int 3),
          Op.claimWorkflow ["a"] "w0" 0, Op.sleepWorkflow 0 "w0" 100]).steps :=
  (claim4_sleeper_then_expired (runTrace_reachable _) ["a"] "w2" 200 (by decide)).1
    ⟨(0, { name := "a", creationTime := 0, status := .sleeping, input := Value.int 3,
           sleepUntil := some 100 }),
      by decide, rfl, ⟨100, rfl, by decide⟩, Or.inr (by decide)⟩

/-! ## Claim C8 -/

theorem idFind_append_fresh {β : Type} (l : List (Nat × β)) (k : Nat) (x : β)
    (h : ∀ e ∈ l, e.1 ≠ k) : idFind (l ++ [(k, x)]) k = some x := by
  induction l with
  | nil => simp [idFind]
  | cons e rest ih =>
    obtain ⟨i, y⟩ := e
    have hi : i ≠ k := h (i, y) (List.mem_cons_self _ _)
    simp only [List.cons_append, idFind, hi, if_neg]
    exact ih fun e he => h e (List.mem_cons_of_mem _ he)

/-- C8: calling `ctx.sleep`, `ctx.sleepUntil` or `ctx.waitForSignal` inside a
`ctx.step` activity throws an error whose message contains
`"cannot be called inside ctx.step"`; the runner then marks the step `failed`
and the workflow `failed` with that message, and `scheduleSleep` is never
invoked. -/
theorem claim8_nested_guard {s : Store} (hreach : Reachable s)
    (workflowId : Nat) (w stepName : String) (call : InnerCall) (now : Nat)
    (wf : Workflow) (hget : getWf s workflowId = some wf) (hrun : wf.status = .running)
    (hclaim : wf.claimedBy = some w)
    (hfresh : strFind wf.stepIdsByName stepName = none) :
    ContainsSub (nestedGuardMessage call stepName) "cannot be called inside ctx.step" ∧
    (executeNestedWorkflow s workflowId w stepName call now).2 =
      [.getOrCreateStep, .failStep, .failWorkflow] ∧
    MutName.scheduleSleep ∉ (executeNestedWorkflow s workflowId w stepName call now).2 ∧
    getStep (executeNestedWorkflow s workflowId w stepName call now).1 s.nextStepId =
      some { workflowId := workflowId, name := stepName, status := .failed,
             error := some (nestedGuardMessage call stepName), attempts := 1,
             startedAt := some now, completedAt := some now } ∧
    getWf (executeNestedWorkflow s workflowId w stepName call now).1 workflowId =
      some { wf with
               stepIdsByName := strInsert wf.stepIdsByName stepName s.nextStepId
               status := .failed
               error := some (nestedGuardMessage call stepName)
               claimedBy := none
               claimedAt := none
               leaseExpiresAt := none } := by
  have hinv := reachable_inv hreach
  have hsub : ContainsSub (nestedGuardMessage call stepName)
      "cannot be called inside ctx.step" := by
    cases call with
    | sleepCall m d =>
      exact ⟨"ctx.sleep() ", "(\"" ++ stepName ++
        "\"). " ++ "Move the sleep outside of ctx.step and make it its own top-level await.",
        by simp only [nestedGuardMessage, String.append_assoc]⟩
    | sleepUntilCall m t =>
      exact ⟨"ctx.sleepUntil() ", "(\"" ++ stepName ++
        "\"). " ++ "Move the sleep outside of ctx.step and make it its own top-level await.",
        by simp only [nestedGuardMessage, String.append_assoc]⟩
    | waitForSignalCall m sig =>
      exact ⟨"ctx.waitForSignal() ", "(\"" ++ stepName ++
        "\"). " ++ "Move the wait outside of ctx.step and make it its own top-level await.",
        by simp only [nestedGuardMessage, String.append_assoc]⟩
  -- evaluate the runner's path
  have hcreate : getOrCreateStep s workflowId stepName w now =
      .ok (⟨s.nextStepId, .running, none, none, none, true⟩,
        patchWf { s with
            steps := s.steps ++ [(s.nextStepId,
              { workflowId := workflowId, name := stepName, status := .running,
                attempts := 1, startedAt := some now : Step})]
            nextStepId := s.nextStepId + 1 } workflowId
          fun w0 =>
            { w0 with stepIdsByName := strInsert w0.stepIdsByName stepName s.nextStepId }) := by
    unfold getOrCreateStep
    rw [hget]
    dsimp only
    rw [if_pos ⟨hrun, hclaim⟩, hfresh]
  have hstep1 : getStep
      (patchWf { s with
          steps := s.steps ++ [(s.nextStepId,
            { workflowId := workflowId, name := stepName, status := .running,
              attempts := 1, startedAt := some now : Step})]
          nextStepId := s.nextStepId + 1 } workflowId
        fun w0 =>
          { w0 with stepIdsByName := strInsert w0.stepIdsByName stepName s.nextStepId })
      s.nextStepId =
      some { workflowId := workflowId, name := stepName, status := .running,
             attempts := 1, startedAt := some now : Step} := by
    rw [getStep_patchWf]
    exact idFind_append_fresh _ _ _ fun e he hk =>
      absurd (hk ▸ hinv.stepKeysLt e he) (by omega)
  have hwf1 : getWf
      (patchWf { s with
          steps := s.steps ++ [(s.nextStepId,
            { workflowId := workflowId, name := stepName, status := .running,
              attempts := 1, startedAt := some now : Step})]
          nextStepId := s.nextStepId + 1 } workflowId
        fun w0 =>
          { w0 with stepIdsByName := strInsert w0.stepIdsByName stepName s.nextStepId })
      workflowId =
      some { wf with stepIdsByName := strInsert wf.stepIdsByName stepName s.nextStepId } := by
    rw [getWf_patchWf_self]
    show (idFind s.workflows workflowId).map _ = _
    rw [show idFind s.workflows workflowId = some wf from hget]
    rfl
  have hrun1 : ({ wf with
      stepIdsByName := strInsert wf.stepIdsByName stepName s.nextStepId } : Workflow).status =
      .running := hrun
  have hclaim1 : ({ wf with
      stepIdsByName :=
        strInsert wf.stepIdsByName stepName s.nextStepId } : Workflow).claimedBy =
      some w := hclaim
  have hexec : executeNestedWorkflow s workflowId w stepName call now =
      (patchWf
        (patchStep
          (patchWf { s with
              steps := s.steps ++ [(s.nextStepId,
                { workflowId := workflowId, name := stepName, status := .running,
                  attempts := 1, startedAt := some now : Step})]
              nextStepId := s.nextStepId + 1 } workflowId
            fun w0 =>
              { w0 with stepIdsByName := strInsert w0.stepIdsByName stepName s.nextStepId })
          s.nextStepId
          fun st0 =>
            { st0 with
                status := .failed
                error := some (nestedGuardMessage call stepName)
                sleepUntil := none
                completedAt := some now })
        workflowId
        fun w0 =>
          { w0 with
              status := .failed
              error := some (nestedGuardMessage call stepName)
              claimedBy := none
              claimedAt := none
              leaseExpiresAt := none },
       [.getOrCreateStep, .failStep, .failWorkflow]) := by
    unfold executeNestedWorkflow ctxStepNested
    rw [hcreate]
    dsimp only [runNestedBody]
    rw [if_neg (by simp)]
    rw [if_neg (by simp)]
    unfold failStep
    rw [hstep1]
    dsimp only
    rw [if_pos rfl]
    rw [hwf1]
    dsimp only
    rw [if_pos ⟨hrun1, hclaim1⟩]
    dsimp only
    unfold failWorkflow
    rw [getWf_patchStep, hwf1]
    dsimp only
    rw [if_pos hclaim1]
    rfl
  refine ⟨hsub, ?_, ?_, ?_, ?_⟩
  · rw [hexec]
  · rw [hexec]
    show MutName.scheduleSleep ∉
      [MutName.getOrCreateStep, MutName.failStep, MutName.failWorkflow]
    decide
  · rw [hexec]
    show getStep (patchWf _ workflowId _) s.nextStepId = _
    rw [getStep_patchWf, getStep_patchStep_self, hstep1]
    rfl
  · rw [hexec]
    show getWf (patchWf _ workflowId _) workflowId = _
    rw [getWf_patchWf_self, getWf_patchStep, hwf1]
    rfl

theorem claim8_witness :
    ContainsSub (nestedGuardMessage (InnerCall.sleepCall "x" 1000) "bad")
      "cannot be called inside ctx.step" ∧
    (executeNestedWorkflow (runTrace [Op.startWorkflow "a" Value.null,
        Op.claimWorkflow ["a"] "w1" 0]) 0 "w1" "bad" (InnerCall.sleepCall "x" 1000) 1).2 =
      [.getOrCreateStep, .failStep, .failWorkflow] ∧
    MutName.scheduleSleep ∉ (executeNestedWorkflow (runTrace [Op.startWorkflow "a" Value.null,
        Op.claimWorkflow ["a"] "w1" 0]) 0 "w1" "bad" (InnerCall.sleepCall "x" 1000) 1).2 ∧
    getStep (executeNestedWorkflow (runTrace [Op.startWorkflow "a" Value.null,
        Op.claimWorkflow ["a"] "w1" 0]) 0 "w1" "bad" (InnerCall.sleepCall "x" 1000) 1).1
      (runTrace [Op.startWorkflow "a" Value.null,
        Op.claimWorkflow ["a"] "w1" 0]).nextStepId =
      some { workflowId := 0, name := "bad", status := .failed,
             error := some (nestedGuardMessage (InnerCall.sleepCall "x" 1000) "bad"),
             attempts := 1, startedAt := some 1, completedAt := some 1 } ∧
    getWf (executeNestedWorkflow (runTrace [Op.startWorkflow "a" Value.null,
        Op.claimWorkflow ["a"] "w1" 0]) 0 "w1" "bad" (InnerCall.sleepCall "x" 1000) 1).1 0 =
      some { name := "a", creationTime := 0, status := .failed, input := Value.null,
             error := some (nestedGuardMessage (InnerCall.sleepCall "x" 1000) "bad"),
             claimedBy := none, claimedAt := none, leaseExpiresAt := none,
             stepIdsByName := [("bad", 0)] } :=
  claim8_nested_guard (runTrace_reachable _) 0 "w1" "bad" (InnerCall.sleepCall "x" 1000) 1
    { name := "a", creationTime := 0, status := .running, input := Value.null,
      claimedBy := some "w1", claimedAt := some 0, leaseExpiresAt := some 30000 }
    rfl rfl rfl rfl

/-! ## Claim C9 -/

/-- C9 as stated is false: with only an expired-lease workflow present,
`claimWorkflow` would return that workflow, but `subscribePendingWorkflows`
returns 0 — the subscription checks only pending rows and due sleepers. -/
theorem claim9_counterexample :
    subscribePendingWorkflows (runTrace [Op.startWorkflow "a" Value.null,
        Op.claimWorkflow ["a"] "w1" 0]) ["a"] 40000 = 0 ∧
      (claimWorkflow (runTrace [Op.startWorkflow "a" Value.null,
        Op.claimWorkflow ["a"] "w1" 0]) ["a"] "w2" 40000).1 =
        some ⟨0, "a", Value.null⟩ := by
  constructor
  · rfl
  · rfl

/-- C9 (amended): `subscribePendingWorkflows(workflowNames)` returns `1`
exactly when some workflow matching the name filter is pending or is a due
sleeper (`status = sleeping ∧ sleepUntil ≤ now`), and `0` otherwise; expired
leases do not make it fire even though `claim` would return them. -/
theorem claim9_subscribe_characterization (s : Store) (names : List String) (now : Nat) :
    subscribePendingWorkflows s names now =
      (if s.workflows.any (fun e =>
          (names.contains ALL_WORKFLOWS || names.contains e.2.name) &&
            (isPendingRow e || isDueSleeperRow now e)) then 1 else 0) := by
  unfold subscribePendingWorkflows
  by_cases hall : names.contains ALL_WORKFLOWS = true
  · rw [if_pos hall]
    by_cases hp : (s.workflows.find? isPendingRow).isSome = true
    · rw [if_pos hp]
      obtain ⟨e, he, hpe⟩ := List.find?_isSome.mp hp
      rw [if_pos (List.any_eq_true.mpr ⟨e, he, by
        simp [hpe]
        exact Or.inl (List.mem_of_elem_eq_true hall)⟩)]
    · rw [if_neg hp]
      by_cases hsl : (s.workflows.find? (isDueSleeperRow now)).isSome = true
      · rw [if_pos hsl]
        obtain ⟨e, he, hse⟩ := List.find?_isSome.mp hsl
        rw [if_pos (List.any_eq_true.mpr ⟨e, he, by
          simp [hse]
          exact Or.inl (List.mem_of_elem_eq_true hall)⟩)]
      · rw [if_neg hsl]
        rw [if_neg]
        intro hany
        obtain ⟨e, he, hcond⟩ := List.any_eq_true.mp hany
        simp only [Bool.and_eq_true, Bool.or_eq_true] at hcond
        rcases hcond.2 with h1 | h1
        · exact hp (List.find?_isSome.mpr ⟨e, he, h1⟩)
        · exact hsl (List.find?_isSome.mpr ⟨e, he, h1⟩)
  · rw [if_neg hall]
    have hallf : names.contains ALL_WORKFLOWS = false := by
      cases hx : names.contains ALL_WORKFLOWS
      · rfl
      · exact absurd hx hall
    by_cases hp : names.any
        (fun n => (s.workflows.find? (fun e => nameIs n e && isPendingRow e)).isSome) = true
    · rw [if_pos hp]
      obtain ⟨n, hn, hfind⟩ := List.any_eq_true.mp hp
      obtain ⟨e, he, hcond⟩ := List.find?_isSome.mp hfind
      simp only [Bool.and_eq_true, nameIs, beq_iff_eq] at hcond
      rw [if_pos (List.any_eq_true.mpr ⟨e, he, by
        simp [hallf, hcond.2]
        rw [hcond.1]
        exact Or.inr hn⟩)]
    · rw [if_neg hp]
      by_cases hsl : names.any
          (fun n =>
            (s.workflows.find? (fun e => nameIs n e && isDueSleeperRow now e)).isSome) = true
      · rw [if_pos hsl]
        obtain ⟨n, hn, hfind⟩ := List.any_eq_true.mp hsl
        obtain ⟨e, he, hcond⟩ := List.find?_isSome.mp hfind
        simp only [Bool.and_eq_true, nameIs, beq_iff_eq] at hcond
        rw [if_pos (List.any_eq_true.mpr ⟨e, he, by
          simp [hallf, hcond.2]
          rw [hcond.1]
          exact Or.inr hn⟩)]
      · rw [if_neg hsl]
        rw [if_neg]
        intro hany
        obtain ⟨e, he, hcond⟩ := List.any_eq_true.mp hany
        simp only [Bool.and_eq_true, Bool.or_eq_true, hallf, Bool.false_or] at hcond
        have hn : e.2.name ∈ names := List.mem_of_elem_eq_true hcond.1
        rcases hcond.2 with h1 | h1
        · exact hp (List.any_eq_true.mpr ⟨e.2.name, hn,
            List.find?_isSome.mpr ⟨e, he, by simp [nameIs, h1]⟩⟩)
        · exact hsl (List.any_eq_true.mpr ⟨e.2.name, hn,
            List.find?_isSome.mpr ⟨e, he, by simp [nameIs, h1]⟩⟩)

/-! ## Claim C2 -/

/-- A patch of another workflow, or one leaving `stepIdsByName` untouched,
preserves the memoization certificate. -/
theorem stepDone_patchWf_keepMap {s : Store} {wfId stepId : Nat} {name : String} {out : Value}
    (h : StepDone s wfId name stepId out) (id' : Nat) (f : Workflow → Workflow)
    (hf : ∀ w0, (f w0).stepIdsByName = w0.stepIdsByName) :
    StepDone (patchWf s id' f) wfId name stepId out := by
  obtain ⟨hb1, hb2, ⟨wf, hget, hmap⟩, hstep⟩ := h
  refine ⟨hb1, hb2, ?_, hstep⟩
  by_cases hid : wfId = id'
  · subst hid
    rw [getWf_patchWf_self, hget]
    exact ⟨f wf, rfl, by rw [hf]; exact hmap⟩
  · rw [getWf_patchWf_ne _ _ _ _ hid]
    exact ⟨wf, hget, hmap⟩

/-- A patch of a different step row preserves the certificate. -/
theorem stepDone_patchStep_ne {s : Store} {wfId stepId : Nat} {name : String} {out : Value}
    (h : StepDone s wfId name stepId out) (sid' : Nat) (f : Step → Step)
    (hne : sid' ≠ stepId) : StepDone (patchStep s sid' f) wfId name stepId out := by
  obtain ⟨hb1, hb2, hmap, ⟨st, hst, hc, ho⟩⟩ := h
  refine ⟨hb1, hb2, hmap, ⟨st, ?_, hc, ho⟩⟩
  rw [getStep_patchStep_ne _ _ _ _ (Ne.symm hne)]
  exact hst

/-- Once a step is completed and recorded in `stepIdsByName`, no operation
removes the mapping, changes the step's status, or changes its output. -/
theorem stepDone_apply {s : Store} (hinv : Inv s) {wfId stepId : Nat} {name : String}
    {out : Value} (h : StepDone s wfId name stepId out) (op : Op) :
    StepDone (s.apply op) wfId name stepId out := by
  obtain ⟨hb1, hb2, ⟨wf, hget, hmap⟩, ⟨st, hst, hstc, hsto⟩⟩ := h
  have hdone : StepDone s wfId name stepId out :=
    ⟨hb1, hb2, ⟨wf, hget, hmap⟩, ⟨st, hst, hstc, hsto⟩⟩
  cases op with
  | startWorkflow n input =>
    show StepDone (startWorkflow s n input).2 wfId name stepId out
    unfold startWorkflow
    exact ⟨by show wfId < s.nextWorkflowId + 1; omega, hb2,
      ⟨wf, idFind_append_left _ _ _ hget, hmap⟩, ⟨st, hst, hstc, hsto⟩⟩
  | claimWorkflow names w' now' =>
    show StepDone (claimWorkflow s names w' now').2 wfId name stepId out
    unfold claimWorkflow
    split
    · split
      · exact stepDone_patchWf_keepMap hdone _ _ fun w0 => rfl
      · split
        · exact stepDone_patchWf_keepMap hdone _ _ fun w0 => rfl
        · split
          · exact stepDone_patchWf_keepMap hdone _ _ fun w0 => rfl
          · split
            · exact stepDone_patchWf_keepMap hdone _ _ fun w0 => rfl
            · exact hdone
    · split
      · exact stepDone_patchWf_keepMap hdone _ _ fun w0 => rfl
      · split
        · exact stepDone_patchWf_keepMap hdone _ _ fun w0 => rfl
        · split
          · exact stepDone_patchWf_keepMap hdone _ _ fun w0 => rfl
          · split
            · exact stepDone_patchWf_keepMap hdone _ _ fun w0 => rfl
            · exact hdone
  | heartbeat id' w' now' =>
    show StepDone (heartbeat s id' w' now').2 wfId name stepId out
    unfold heartbeat
    split
    · exact hdone
    · split
      · exact stepDone_patchWf_keepMap hdone _ _ fun w0 => rfl
      · exact hdone
  | completeWorkflow id' w' out' =>
    show StepDone (completeWorkflow s id' w' out').2 wfId name stepId out
    unfold completeWorkflow
    split
    · exact hdone
    · split
      · exact stepDone_patchWf_keepMap hdone _ _ fun w0 => rfl
      · exact hdone
  | failWorkflow id' w' err =>
    show StepDone (failWorkflow s id' w' err).2 wfId name stepId out
    unfold failWorkflow
    split
    · exact hdone
    · split
      · exact stepDone_patchWf_keepMap hdone _ _ fun w0 => rfl
      · exact hdone
  | sleepWorkflow id' w' su =>
    show StepDone (sleepWorkflow s id' w' su).2 wfId name stepId out
    unfold sleepWorkflow
    split
    · exact hdone
    · split
      · exact stepDone_patchWf_keepMap hdone _ _ fun w0 => rfl
      · exact hdone
  | getOrCreateStep id' n w' now' =>
    show StepDone (match getOrCreateStep s id' n w' now' with
      | .ok (_, s') => s'
      | .error _ => s) wfId name stepId out
    split
    · next p heq =>
      obtain ⟨info, s'⟩ := p
      unfold getOrCreateStep at heq
      split at heq
      · cases heq
      · next wf0 hget0 =>
        split at heq
        · -- the guard passed; the mapping we hold blocks a same-name create
          have hins : ¬(id' = wfId ∧ n = name) →
              StepDone
                (patchWf { s with
                    steps := s.steps ++ [(s.nextStepId,
                      { workflowId := id', name := n, status := .running, attempts := 1,
                        startedAt := some now' : Step})]
                    nextStepId := s.nextStepId + 1 } id'
                  (fun w0 =>
                    { w0 with stepIdsByName := strInsert w0.stepIdsByName n s.nextStepId }))
                wfId name stepId out := by
            intro hsame
            have hbase : StepDone { s with
                steps := s.steps ++ [(s.nextStepId,
                  { workflowId := id', name := n, status := .running, attempts := 1,
                    startedAt := some now' : Step})]
                nextStepId := s.nextStepId + 1 } wfId name stepId out :=
              ⟨hb1, by show stepId < s.nextStepId + 1; omega, ⟨wf, hget, hmap⟩,
                ⟨st, idFind_append_left _ _ _ hst, hstc, hsto⟩⟩
            obtain ⟨hc1, hc2, ⟨wf1, hget1, hmap1⟩, hstep1⟩ := hbase
            refine ⟨hc1, hc2, ?_, hstep1⟩
            by_cases hid : wfId = id'
            · subst hid
              rw [getWf_patchWf_self, hget1]
              refine ⟨_, rfl, ?_⟩
              have hn : n ≠ name := fun hc => hsame ⟨rfl, hc⟩
              rw [strFind_strInsert_ne _ _ _ _ (Ne.symm hn)]
              exact hmap1
            · rw [getWf_patchWf_ne _ _ _ _ hid]
              exact ⟨wf1, hget1, hmap1⟩
          split at heq
          · next sid2 hfind =>
            split at heq
            · cases heq
              exact hdone
            · next hstep0 =>
              cases heq
              by_cases hsame : id' = wfId ∧ n = name
              · exfalso
                obtain ⟨hw, hn⟩ := hsame
                subst hw
                subst hn
                rw [hget] at hget0
                cases hget0
                rw [hmap] at hfind
                cases hfind
                rw [hst] at hstep0
                cases hstep0
              · exact hins hsame
          · next hfind =>
            cases heq
            by_cases hsame : id' = wfId ∧ n = name
            · exfalso
              obtain ⟨hw, hn⟩ := hsame
              subst hw
              subst hn
              rw [hget] at hget0
              cases hget0
              rw [hmap] at hfind
              cases hfind
            · exact hins hsame
        · cases heq
    · exact hdone
  | scheduleSleep id' sid' w' su now' =>
    show StepDone (scheduleSleep s id' sid' w' su now').2 wfId name stepId out
    unfold scheduleSleep
    split
    · exact hdone
    · split
      · split
        · exact hdone
        · next st0 hst0 =>
          split
          · next hg0 =>
            have hne : sid' ≠ stepId := by
              intro hc
              subst hc
              rw [hst] at hst0
              cases hst0
              rw [hstc] at hg0
              cases hg0.2
            dsimp only
            split
            · exact hdone
            · dsimp only
              split
              · exact stepDone_patchWf_keepMap
                  (stepDone_patchStep_ne hdone _ _ hne) _ _ fun w0 => rfl
              · exact stepDone_patchWf_keepMap hdone _ _ fun w0 => rfl
          · exact hdone
      · exact hdone
  | completeStep sid' w' out' now' =>
    show StepDone (completeStep s sid' w' out' now').2 wfId name stepId out
    unfold completeStep
    split
    · exact hdone
    · next st0 hst0 =>
      split
      · next hrun0 =>
        have hne : sid' ≠ stepId := by
          intro hc
          subst hc
          rw [hst] at hst0
          cases hst0
          rw [hstc] at hrun0
          cases hrun0
        split
        · exact hdone
        · split
          · exact stepDone_patchStep_ne hdone _ _ hne
          · exact hdone
      · exact hdone
  | failStep sid' w' err now' =>
    show StepDone (failStep s sid' w' err now').2 wfId name stepId out
    unfold failStep
    split
    · exact hdone
    · next st0 hst0 =>
      split
      · next hrun0 =>
        have hne : sid' ≠ stepId := by
          intro hc
          subst hc
          rw [hst] at hst0
          cases hst0
          rw [hstc] at hrun0
          cases hrun0
        split
        · exact hdone
        · split
          · exact stepDone_patchStep_ne hdone _ _ hne
          · exact hdone
      · exact hdone
  | waitForSignal id' sid' w' sig =>
    show StepDone (waitForSignal s id' sid' w' sig).2 wfId name stepId out
    unfold waitForSignal
    split
    · exact hdone
    · split
      · split
        · exact hdone
        · next st0 hst0 =>
          split
          · next hg0 =>
            have hne : sid' ≠ stepId := by
              intro hc
              subst hc
              rw [hst] at hst0
              cases hst0
              rw [hstc] at hg0
              cases hg0.2
            split
            · exact stepDone_patchWf_keepMap hdone _ _ fun w0 => rfl
            · exact stepDone_patchWf_keepMap
                (stepDone_patchStep_ne hdone _ _ hne) _ _ fun w0 => rfl
          · exact hdone
      · exact hdone
  | signalWorkflow id' sig payload now' =>
    show StepDone (signalWorkflow s id' sig payload now').2 wfId name stepId out
    unfold signalWorkflow
    split
    · exact hdone
    · split
      · next sid0 st0 heq0 =>
        unfold findWaiter at heq0
        have hfw := List.find?_some heq0
        simp only [Bool.and_eq_true, beq_iff_eq] at hfw
        have hmem0 : (sid0, st0) ∈ s.steps := List.mem_of_find?_eq_some heq0
        have hne : sid0 ≠ stepId := by
          intro hc
          subst hc
          have heqst : st0 = st :=
            mem_unique_of_nodup hinv.stepKeysNodup hmem0 (idFind_mem _ _ hst)
          rw [heqst, hstc] at hfw
          exact absurd hfw.2 (by simp)
        split
        · exact stepDone_patchWf_keepMap
            (stepDone_patchStep_ne hdone _ _ hne) _ _ fun w0 => rfl
        · exact stepDone_patchWf_keepMap hdone _ _ fun w0 => rfl
      · exact stepDone_patchWf_keepMap hdone _ _ fun w0 => rfl

/-- The certificate survives any sequence of further operations. -/
theorem stepDone_foldl {s : Store} (hinv : Inv s) {wfId stepId : Nat} {name : String}
    {out : Value} (h : StepDone s wfId name stepId out) (ops : List Op) :
    StepDone (ops.foldl Store.apply s) wfId name stepId out := by
  induction ops generalizing s with
  | nil => exact h
  | cons op ops ih =>
    rw [List.foldl_cons]
    exact ih (inv_apply hinv op) (stepDone_apply hinv h op)

/-- A successful `completeStep` on a step reachable through `stepIdsByName`
establishes the certificate. -/
theorem completeStep_stepDone {s : Store} (hinv : Inv s) {wfId stepId : Nat} {name : String}
    {w : String} {out : Value} {now : Nat} {wf : Workflow}
    (hget : getWf s wfId = some wf) (hmap : strFind wf.stepIdsByName name = some stepId)
    (hsucc : (completeStep s stepId w out now).1 = true) :
    StepDone (completeStep s stepId w out now).2 wfId name stepId out := by
  have hb1 : wfId < s.nextWorkflowId := hinv.wfKeysLt _ (idFind_mem _ _ hget)
  unfold completeStep at hsucc
  split at hsucc
  · cases hsucc
  · next st hgetst =>
    have hb2 : stepId < s.nextStepId := hinv.stepKeysLt _ (idFind_mem _ _ hgetst)
    split at hsucc
    · next hstrun =>
      split at hsucc
      · cases hsucc
      · next wf0 hgetwf0 =>
        split at hsucc
        · next hg =>
          show StepDone (completeStep s stepId w out now).2 wfId name stepId out
          unfold completeStep
          rw [hgetst]
          dsimp only
          rw [if_pos hstrun, hgetwf0]
          dsimp only
          rw [if_pos hg]
          dsimp only
          refine ⟨hb1, hb2, ⟨wf, hget, hmap⟩, ?_⟩
          rw [getStep_patchStep_self, hgetst]
          exact ⟨_, rfl, rfl, rfl⟩
        · cases hsucc
    · cases hsucc

/-- Under the certificate, `getOrCreateStep` for the same name returns the
memoized step unchanged: `isNew = false`, `status = completed`, the original
output, and no store modification. -/
theorem getOrCreateStep_of_stepDone {s : Store} {wfId stepId : Nat} {name : String}
    {out : Value} (h : StepDone s wfId name stepId out) {w : String} {now : Nat}
    {info : StepInfo} {s' : Store}
    (heq : getOrCreateStep s wfId name w now = .ok (info, s')) :
    info.stepId = stepId ∧ info.isNew = false ∧ info.status = .completed ∧
      info.output = some out ∧ s' = s := by
  obtain ⟨hb1, hb2, ⟨wf, hget, hmap⟩, ⟨st, hst, hstc, hsto⟩⟩ := h
  unfold getOrCreateStep at heq
  rw [hget] at heq
  dsimp only at heq
  split at heq
  · rw [hmap] at heq
    dsimp only at heq
    rw [hst] at heq
    dsimp only at heq
    cases heq
    exact ⟨rfl, rfl, hstc, hsto, rfl⟩
  · cases heq

/-- C2: after a successful `completeStep` for a name's mapped step with
output `out`, after any further operations the mapping still resolves to that
same step, the step stays `completed` with output `out`, and every successful
`getOrCreateStep` for that name returns `isNew = false`, `status = completed`,
the same output, the same step id, and creates no new step row. -/
theorem claim2_step_memoization {s : Store} (hreach : Reachable s)
    (wfId : Nat) (name : String) (stepId : Nat) (w : String) (out : Value) (now : Nat)
    (wf : Workflow) (hget : getWf s wfId = some wf)
    (hmap : strFind wf.stepIdsByName name = some stepId)
    (hsucc : (completeStep s stepId w out now).1 = true) (ops : List Op) :
    (∃ wf2, getWf (ops.foldl Store.apply (completeStep s stepId w out now).2) wfId =
        some wf2 ∧ strFind wf2.stepIdsByName name = some stepId) ∧
    (∃ st2, getStep (ops.foldl Store.apply (completeStep s stepId w out now).2) stepId =
        some st2 ∧ st2.status = .completed ∧ st2.output = some out) ∧
    (∀ w' now' info s3,
      getOrCreateStep (ops.foldl Store.apply (completeStep s stepId w out now).2)
          wfId name w' now' = .ok (info, s3) →
        info.stepId = stepId ∧ info.isNew = false ∧ info.status = .completed ∧
          info.output = some out ∧
          s3 = ops.foldl Store.apply (completeStep s stepId w out now).2) := by
  have hinv := reachable_inv hreach
  have hinv1 : Inv (completeStep s stepId w out now).2 := by
    have := inv_apply hinv (Op.completeStep stepId w out now)
    exact this
  have hd0 := completeStep_stepDone hinv hget hmap hsucc
  have hd := stepDone_foldl hinv1 hd0 ops
  obtain ⟨_, _, hmap2, hstep2⟩ := hd
  refine ⟨hmap2, hstep2, ?_⟩
  intro w' now' info s3 heq
  exact getOrCreateStep_of_stepDone (stepDone_foldl hinv1 hd0 ops) heq

theorem claim2_witness :
    ∃ st2, getStep ([Op.heartbeat 0 "w1" 2].foldl Store.apply
        (completeStep (runTrace [Op.startWorkflow "a" Value.null,
          Op.claimWorkflow ["a"] "w1" 0, Op.getOrCreateStep 0 "m" "w1" 0])
          0 "w1" (Value.str "ok") 1).2) 0 = some st2 ∧
      st2.status = .completed ∧ st2.output = some (Value.str "ok") :=
  (claim2_step_memoization (runTrace_reachable [Op.startWorkflow "a" Value.null,
      Op.claimWorkflow ["a"] "w1" 0, Op.getOrCreateStep 0 "m" "w1" 0])
    0 "m" 0 "w1" (Value.str "ok") 1 _ rfl rfl (by decide)
    [Op.heartbeat 0 "w1" 2]).2.1

/-! ## Claim C10 -/

/-- A patch that does not touch `claimedBy` leaves the looked-up claim
holder intact, whichever row it targets. -/
theorem getWf_preserved_patch {s : Store} {id : Nat} (id' : Nat) {wf : Workflow}
    (f : Workflow → Workflow) (hf : ∀ w0, (f w0).claimedBy = w0.claimedBy)
    (hget : getWf s id = some wf) :
    ∃ wf', getWf (patchWf s id' f) id = some wf' ∧ wf'.claimedBy = wf.claimedBy := by
  by_cases hid : id = id'
  · subst hid
    rw [getWf_patchWf_self, hget]
    exact ⟨f wf, rfl, hf wf⟩
  · rw [getWf_patchWf_ne _ _ _ _ hid]
    exact ⟨wf, hget, rfl⟩

/-- C10: `heartbeat` checks only that the workflow exists and that
`claimedBy = workerId` — never status or current lease.  Whenever
`claimedBy = workerId` it returns true and sets `claimedAt = now`,
`leaseExpiresAt = now + 30000` (so an expired but unreclaimed claim is
silently revived); it returns true exactly when the workflow exists with
`claimedBy = workerId`, changes nothing when it returns false, and a held
claim is moved only by a `claimWorkflow` call: no other operation of another
worker reassigns `claimedBy`. -/
theorem claim10_heartbeat (s : Store) (id : Nat) (w : String) (now : Nat) :
    (∀ wf, getWf s id = some wf → wf.claimedBy = some w →
      (heartbeat s id w now).1 = true ∧
      getWf (heartbeat s id w now).2 id =
        some { wf with
                 claimedAt := some now
                 leaseExpiresAt := some (now + CLAIM_TIMEOUT_MS) } ∧
      (∀ j, j ≠ id → getWf (heartbeat s id w now).2 j = getWf s j) ∧
      (heartbeat s id w now).2.steps = s.steps) ∧
    ((heartbeat s id w now).1 = true ↔
      ∃ wf, getWf s id = some wf ∧ wf.claimedBy = some w) ∧
    ((heartbeat s id w now).1 = false → (heartbeat s id w now).2 = s) ∧
    (∀ op : Op, op.workerOf ≠ some w → op.isClaimOp = false →
      ∀ wf, getWf s id = some wf → wf.claimedBy = some w →
        ∃ wf', getWf (s.apply op) id = some wf' ∧ wf'.claimedBy = some w) := by
  refine ⟨?_, ?_, ?_, ?_⟩
  · intro wf hget hcl
    unfold heartbeat
    rw [hget]
    dsimp only
    rw [if_pos hcl]
    refine ⟨rfl, ?_, ?_, rfl⟩
    · rw [getWf_patchWf_self, hget]
      rfl
    · intro j hj
      exact getWf_patchWf_ne _ _ _ _ hj
  · unfold heartbeat
    split
    · next hnone =>
      simp [hnone]
    · next wf hget =>
      split
      · next hcl =>
        simp only [true_iff]
        exact ⟨wf, hget, hcl⟩
      · next hcl =>
        constructor
        · intro hft
          cases hft
        · rintro ⟨wf', hget', hcl'⟩
          rw [hget] at hget'
          cases hget'
          exact absurd hcl' hcl
  · unfold heartbeat
    split
    · intro _
      rfl
    · split
      · intro hfalse
        cases hfalse
      · intro _
        rfl
  · intro op hworker hnotclaim wf hget hcl
    cases op with
    | startWorkflow n input =>
      exact ⟨wf, idFind_append_left _ _ _ hget, hcl⟩
    | claimWorkflow names w' now' =>
      simp [Op.isClaimOp] at hnotclaim
    | heartbeat id' w' now' =>
      show ∃ wf', getWf (heartbeat s id' w' now').2 id = some wf' ∧ _
      unfold heartbeat
      split
      · exact ⟨wf, hget, hcl⟩
      · next wf0 hget0 =>
        split
        · next hcl0 =>
          by_cases hid : id = id'
          · subst hid
            rw [hget] at hget0
            cases hget0
            rw [hcl] at hcl0
            cases hcl0
            simp [Op.workerOf] at hworker
          · obtain ⟨wf', h1, h2⟩ :=
              getWf_preserved_patch id' (fun w0 =>
                { w0 with claimedAt := some now', leaseExpiresAt := some (now' + CLAIM_TIMEOUT_MS) })
                (fun w0 => rfl) hget
            exact ⟨wf', h1, h2.trans hcl⟩
        · exact ⟨wf, hget, hcl⟩
    | completeWorkflow id' w' out =>
      show ∃ wf', getWf (completeWorkflow s id' w' out).2 id = some wf' ∧ _
      unfold completeWorkflow
      split
      · exact ⟨wf, hget, hcl⟩
      · next wf0 hget0 =>
        split
        · next hcl0 =>
          by_cases hid : id = id'
          · subst hid
            rw [hget] at hget0
            cases hget0
            rw [hcl] at hcl0
            cases hcl0
            simp [Op.workerOf] at hworker
          · rw [getWf_patchWf_ne _ _ _ _ hid]
            exact ⟨wf, hget, hcl⟩
        · exact ⟨wf, hget, hcl⟩
    | failWorkflow id' w' err =>
      show ∃ wf', getWf (failWorkflow s id' w' err).2 id = some wf' ∧ _
      unfold failWorkflow
      split
      · exact ⟨wf, hget, hcl⟩
      · next wf0 hget0 =>
        split
        · next hcl0 =>
          by_cases hid : id = id'
          · subst hid
            rw [hget] at hget0
            cases hget0
            rw [hcl] at hcl0
            cases hcl0
            simp [Op.workerOf] at hworker
          · rw [getWf_patchWf_ne _ _ _ _ hid]
            exact ⟨wf, hget, hcl⟩
        · exact ⟨wf, hget, hcl⟩
    | sleepWorkflow id' w' su =>
      show ∃ wf', getWf (sleepWorkflow s id' w' su).2 id = some wf' ∧ _
      unfold sleepWorkflow
      split
      · exact ⟨wf, hget, hcl⟩
      · next wf0 hget0 =>
        split
        · next hg0 =>
          by_cases hid : id = id'
          · subst hid
            rw [hget] at hget0
            cases hget0
            rw [hcl] at hg0
            simp [Op.workerOf] at hworker
            rw [(Option.some.injEq _ _).mp hg0.2] at hworker
            exact absurd rfl hworker
          · rw [getWf_patchWf_ne _ _ _ _ hid]
            exact ⟨wf, hget, hcl⟩
        · exact ⟨wf, hget, hcl⟩
    | getOrCreateStep id' n w' now' =>
      show ∃ wf', getWf (match getOrCreateStep s id' n w' now' with
        | .ok (_, s') => s'
        | .error _ => s) id = some wf' ∧ _
      split
      · next p heq =>
        obtain ⟨info, s'⟩ := p
        unfold getOrCreateStep at heq
        split at heq
        · cases heq
        · split at heq
          · split at heq
            · split at heq
              · cases heq
                exact ⟨wf, hget, hcl⟩
              · cases heq
                obtain ⟨wf', h1, h2⟩ :=
                  getWf_preserved_patch (s := { s with
                      steps := s.steps ++ [(s.nextStepId,
                        { workflowId := id', name := n, status := .running, attempts := 1,
                          startedAt := some now' : Step})]
                      nextStepId := s.nextStepId + 1 }) id'
                    (fun w0 =>
                      { w0 with stepIdsByName := strInsert w0.stepIdsByName n s.nextStepId })
                    (fun w0 => rfl) (show idFind s.workflows id = some wf from hget)
                exact ⟨wf', h1, h2.trans hcl⟩
            · cases heq
              obtain ⟨wf', h1, h2⟩ :=
                getWf_preserved_patch (s := { s with
                    steps := s.steps ++ [(s.nextStepId,
                      { workflowId := id', name := n, status := .running, attempts := 1,
                        startedAt := some now' : Step})]
                    nextStepId := s.nextStepId + 1 }) id'
                  (fun w0 =>
                    { w0 with stepIdsByName := strInsert w0.stepIdsByName n s.nextStepId })
                  (fun w0 => rfl) (show idFind s.workflows id = some wf from hget)
              exact ⟨wf', h1, h2.trans hcl⟩
          · cases heq
      · exact ⟨wf, hget, hcl⟩
    | scheduleSleep id' sid w' su now' =>
      show ∃ wf', getWf (scheduleSleep s id' sid w' su now').2 id = some wf' ∧ _
      unfold scheduleSleep
      split
      · exact ⟨wf, hget, hcl⟩
      · next wf0 hget0 =>
        split
        · next hg0 =>
          by_cases hid : id = id'
          · subst hid
            rw [hget] at hget0
            cases hget0
            rw [hcl] at hg0
            simp [Op.workerOf] at hworker
            rw [(Option.some.injEq _ _).mp hg0.2] at hworker
            exact absurd rfl hworker
          · split
            · exact ⟨wf, hget, hcl⟩
            · split
              · dsimp only
                split
                · exact ⟨wf, hget, hcl⟩
                · dsimp only
                  split
                  · rw [getWf_patchWf_ne _ _ _ _ hid, getWf_patchStep]
                    exact ⟨wf, hget, hcl⟩
                  · rw [getWf_patchWf_ne _ _ _ _ hid]
                    exact ⟨wf, hget, hcl⟩
              · exact ⟨wf, hget, hcl⟩
        · exact ⟨wf, hget, hcl⟩
    | completeStep sid w' out now' =>
      show ∃ wf', getWf (completeStep s sid w' out now').2 id = some wf' ∧ _
      unfold completeStep
      split
      · exact ⟨wf, hget, hcl⟩
      · split
        · split
          · exact ⟨wf, hget, hcl⟩
          · split
            · rw [getWf_patchStep]
              exact ⟨wf, hget, hcl⟩
            · exact ⟨wf, hget, hcl⟩
        · exact ⟨wf, hget, hcl⟩
    | failStep sid w' err now' =>
      show ∃ wf', getWf (failStep s sid w' err now').2 id = some wf' ∧ _
      unfold failStep
      split
      · exact ⟨wf, hget, hcl⟩
      · split
        · split
          · exact ⟨wf, hget, hcl⟩
          · split
            · rw [getWf_patchStep]
              exact ⟨wf, hget, hcl⟩
            · exact ⟨wf, hget, hcl⟩
        · exact ⟨wf, hget, hcl⟩
    | waitForSignal id' sid w' sig =>
      show ∃ wf', getWf (waitForSignal s id' sid w' sig).2 id = some wf' ∧ _
      unfold waitForSignal
      split
      · exact ⟨wf, hget, hcl⟩
      · next wf0 hget0 =>
        split
        · next hg0 =>
          by_cases hid : id = id'
          · subst hid
            rw [hget] at hget0
            cases hget0
            rw [hcl] at hg0
            simp [Op.workerOf] at hworker
            rw [(Option.some.injEq _ _).mp hg0.2] at hworker
            exact absurd rfl hworker
          · split
            · exact ⟨wf, hget, hcl⟩
            · split
              · split
                · rw [getWf_patchWf_ne _ _ _ _ hid]
                  exact ⟨wf, hget, hcl⟩
                · rw [getWf_patchWf_ne _ _ _ _ hid, getWf_patchStep]
                  exact ⟨wf, hget, hcl⟩
              · exact ⟨wf, hget, hcl⟩
        · exact ⟨wf, hget, hcl⟩
    | signalWorkflow id' sig payload now' =>
      show ∃ wf', getWf (signalWorkflow s id' sig payload now').2 id = some wf' ∧ _
      unfold signalWorkflow
      split
      · exact ⟨wf, hget, hcl⟩
      · split
        · split
          · obtain ⟨wf', h1, h2⟩ :=
              getWf_preserved_patch (s := patchStep s _ _) id'
                (fun w0 => { w0 with status := WStatus.pending }) (fun w0 => rfl)
                (show getWf s id = some wf from hget)
            exact ⟨wf', h1, h2.trans hcl⟩
          · obtain ⟨wf', h1, h2⟩ :=
              getWf_preserved_patch id'
                (fun w0 =>
                  { w0 with pendingSignals := strInsert w0.pendingSignals sig payload })
                (fun w0 => rfl) hget
            exact ⟨wf', h1, h2.trans hcl⟩
        · obtain ⟨wf', h1, h2⟩ :=
            getWf_preserved_patch id'
              (fun w0 =>
                { w0 with pendingSignals := strInsert w0.pendingSignals sig payload })
              (fun w0 => rfl) hget
          exact ⟨wf', h1, h2.trans hcl⟩

theorem claim10_witness :
    (heartbeat (runTrace [Op.startWorkflow "a" Value.null,
      Op.claimWorkflow ["a"] "w1" 0]) 0 "w1" 40000).1 = true :=
  ((claim10_heartbeat (runTrace [Op.startWorkflow "a" Value.null,
      Op.claimWorkflow ["a"] "w1" 0]) 0 "w1" 40000).1 _ rfl rfl).1

/-! ## Claim C1 -/

/-- C1: every guarded worker mutation (`completeStep`, `failStep`,
`completeWorkflow`, `failWorkflow`, `sleepWorkflow`, `scheduleSleep`) returns
false leaving the store unchanged whenever the target workflow's `claimedBy`
is not the calling worker, and a write commits only when
`claimedBy = workerId ∧ status = running` (the sleep transition included,
which itself releases the claim). -/
theorem claim1_guarded_mutations {s : Store} (hreach : Reachable s) :
    (∀ id w (out : Value) wf, getWf s id = some wf → wf.claimedBy ≠ some w →
        completeWorkflow s id w out = (false, s)) ∧
    (∀ id w err wf, getWf s id = some wf → wf.claimedBy ≠ some w →
        failWorkflow s id w err = (false, s)) ∧
    (∀ id w su wf, getWf s id = some wf → wf.claimedBy ≠ some w →
        sleepWorkflow s id w su = (false, s)) ∧
    (∀ id sid w su now wf, getWf s id = some wf → wf.claimedBy ≠ some w →
        scheduleSleep s id sid w su now = (false, s)) ∧
    (∀ sid w (out : Value) now st wf, getStep s sid = some st →
        getWf s st.workflowId = some wf → wf.claimedBy ≠ some w →
        completeStep s sid w out now = (false, s)) ∧
    (∀ sid w err now st wf, getStep s sid = some st →
        getWf s st.workflowId = some wf → wf.claimedBy ≠ some w →
        failStep s sid w err now = (false, s)) ∧
    (∀ id w (out : Value), (completeWorkflow s id w out).1 = true →
        ∃ wf, getWf s id = some wf ∧ wf.claimedBy = some w ∧ wf.status = .running) ∧
    (∀ id w err, (failWorkflow s id w err).1 = true →
        ∃ wf, getWf s id = some wf ∧ wf.claimedBy = some w ∧ wf.status = .running) ∧
    (∀ id w su, (sleepWorkflow s id w su).1 = true →
        ∃ wf, getWf s id = some wf ∧ wf.claimedBy = some w ∧ wf.status = .running) ∧
    (∀ id sid w su now, (scheduleSleep s id sid w su now).1 = true →
        ∃ wf, getWf s id = some wf ∧ wf.claimedBy = some w ∧ wf.status = .running) ∧
    (∀ sid w (out : Value) now, (completeStep s sid w out now).1 = true →
        ∃ st wf, getStep s sid = some st ∧ st.status = .running ∧
          getWf s st.workflowId = some wf ∧ wf.claimedBy = some w ∧
          wf.status = .running) ∧
    (∀ sid w err now, (failStep s sid w err now).1 = true →
        ∃ st wf, getStep s sid = some st ∧ st.status = .running ∧
          getWf s st.workflowId = some wf ∧ wf.claimedBy = some w ∧
          wf.status = .running) := by
  have hinv := reachable_inv hreach
  have hrunning : ∀ {id wf w}, getWf s id = some wf → wf.claimedBy = some w →
      wf.status = .running := by
    intro id wf w hget hcl
    obtain ⟨h1, _, _⟩ := hinv.wfRows _ (idFind_mem _ _ hget)
    exact h1.mpr (by simp [hcl])
  refine ⟨?_, ?_, ?_, ?_, ?_, ?_, ?_, ?_, ?_, ?_, ?_, ?_⟩
  · intro id w out wf hget hne
    unfold completeWorkflow
    rw [hget]
    dsimp only
    rw [if_neg hne]
  · intro id w err wf hget hne
    unfold failWorkflow
    rw [hget]
    dsimp only
    rw [if_neg hne]
  · intro id w su wf hget hne
    unfold sleepWorkflow
    rw [hget]
    dsimp only
    rw [if_neg (fun h => hne h.2)]
  · intro id sid w su now wf hget hne
    unfold scheduleSleep
    rw [hget]
    dsimp only
    rw [if_neg (fun h => hne h.2)]
  · intro sid w out now st wf hgetst hget hne
    unfold completeStep
    rw [hgetst]
    dsimp only
    by_cases hst : st.status = .running
    · rw [if_pos hst, hget]
      dsimp only
      rw [if_neg (fun h => hne h.2)]
    · rw [if_neg hst]
  · intro sid w err now st wf hgetst hget hne
    unfold failStep
    rw [hgetst]
    dsimp only
    by_cases hst : st.status = .running
    · rw [if_pos hst, hget]
      dsimp only
      rw [if_neg (fun h => hne h.2)]
    · rw [if_neg hst]
  · intro id w out htrue
    unfold completeWorkflow at htrue
    split at htrue
    · cases htrue
    · next wf hget =>
      split at htrue
      · next hcl =>
        exact ⟨wf, hget, hcl, hrunning hget hcl⟩
      · cases htrue
  · intro id w err htrue
    unfold failWorkflow at htrue
    split at htrue
    · cases htrue
    · next wf hget =>
      split at htrue
      · next hcl =>
        exact ⟨wf, hget, hcl, hrunning hget hcl⟩
      · cases htrue
  · intro id w su htrue
    unfold sleepWorkflow at htrue
    split at htrue
    · cases htrue
    · next wf hget =>
      split at htrue
      · next hg =>
        exact ⟨wf, hget, hg.2, hg.1⟩
      · cases htrue
  · intro id sid w su now htrue
    unfold scheduleSleep at htrue
    split at htrue
    · cases htrue
    · next wf hget =>
      split at htrue
      · next hg =>
        exact ⟨wf, hget, hg.2, hg.1⟩
      · cases htrue
  · intro sid w out now htrue
    unfold completeStep at htrue
    split at htrue
    · cases htrue
    · next st hgetst =>
      split at htrue
      · next hst =>
        split at htrue
        · cases htrue
        · next wf hget =>
          split at htrue
          · next hg =>
            exact ⟨st, wf, hgetst, hst, hget, hg.2, hg.1⟩
          · cases htrue
      · cases htrue
  · intro sid w err now htrue
    unfold failStep at htrue
    split at htrue
    · cases htrue
    · next st hgetst =>
      split at htrue
      · next hst =>
        split at htrue
        · cases htrue
        · next wf hget =>
          split at htrue
          · next hg =>
            exact ⟨st, wf, hgetst, hst, hget, hg.2, hg.1⟩
          · cases htrue
      · cases htrue

theorem claim1_witness :
    completeWorkflow (runTrace [Op.startWorkflow "a" Value.null,
        Op.claimWorkflow ["a"] "w1" 0]) 0 "w2" Value.null =
      (false, runTrace [Op.startWorkflow "a" Value.null,
        Op.claimWorkflow ["a"] "w1" 0]) :=
  (claim1_guarded_mutations (runTrace_reachable _)).1 0 "w2" Value.null _ rfl
    (by decide)

theorem claim6_witness :
    (scheduleSleep (runTrace [Op.startWorkflow "a" Value.null,
        Op.claimWorkflow ["a"] "w1" 0,
        Op.getOrCreateStep 0 "m" "w1" 0]) 0 0 "w1" 100 5).1 = true ∧
      getWf (scheduleSleep (runTrace [Op.startWorkflow "a" Value.null,
        Op.claimWorkflow ["a"] "w1" 0,
        Op.getOrCreateStep 0 "m" "w1" 0]) 0 0 "w1" 100 5).2 0 =
        some { name := "a", creationTime := 0, status := .sleeping, input := Value.null,
               stepIdsByName := [("m", 0)], sleepUntil := some 100 } := by
  have h := (claim6_scheduleSleep (runTrace [Op.startWorkflow "a" Value.null,
      Op.claimWorkflow ["a"] "w1" 0,
      Op.getOrCreateStep 0 "m" "w1" 0]) 0 0 "w1" 100 5).2
      _ _ rfl rfl rfl rfl rfl rfl (by decide)
  exact ⟨h.1, h.2.2.1⟩

/-! ## Claim C5 -/

/-- Removing a freshly inserted key restores the original map when the key
was absent. -/
theorem strRemove_strInsert_of_none {β : Type} (l : List (String × β)) (k : String) (v : β)
    (h : strFind l k = none) : strRemove (strInsert l k v) k = l := by
  induction l with
  | nil => simp [strInsert, strRemove]
  | cons e rest ih =>
    obtain ⟨k', v'⟩ := e
    by_cases hk : k' = k
    · subst hk
      simp [strFind] at h
    · simp only [strFind, if_neg hk] at h
      simp [strInsert, strRemove, hk, ih h]

/-- C5: spec-modelled signal semantics.  (a) If a waiting step is registered
for the signal, `signalWorkflow` returns `true` and atomically completes that
step with `output = payload`, transitions the workflow from `waiting` back to
`pending`, and clears the registration.  (b) Round trip with no registered
waiter and no queued signal: `signalWorkflow` enqueues the payload into
`pendingSignals`; a later `waitForSignal` for that name consumes it exactly
once (`pendingSignals` is restored, so the workflow row returns to `wf`),
and after `completeStep` the marker step holds `output = payload` and every
subsequent `getOrCreateStep` for the marker name returns `isNew = false`,
`status = completed`, `output = payload` without changing the store. -/
theorem claim5_signal_roundtrip :
    (∀ (s : Store) (wfId : Nat) (sig : String) (payload : Value) (now : Nat)
        (wf : Workflow) (sid : Nat) (st : Step),
      getWf s wfId = some wf → wf.status = .waiting →
      findWaiter s wfId sig = some (sid, st) → getStep s sid = some st →
      ∃ s', signalWorkflow s wfId sig payload now = (true, s') ∧
        getStep s' sid = some { st with
          status := .completed
          output := some payload
          awaitingSignal := none
          completedAt := some now } ∧
        getWf s' wfId = some { wf with status := .pending }) ∧
    (∀ (s : Store) (wfId : Nat) (sig stepName w : String) (payload : Value)
        (now1 now2 now3 : Nat) (wf : Workflow) (sid : Nat) (st : Step),
      getWf s wfId = some wf → wf.status = .running → wf.claimedBy = some w →
      getStep s sid = some st → st.workflowId = wfId → st.status = .running →
      findWaiter s wfId sig = none → strFind wf.pendingSignals sig = none →
      strFind wf.stepIdsByName stepName = some sid →
      ∃ s1 s2 s3 : Store,
        signalWorkflow s wfId sig payload now1 = (true, s1) ∧
        waitForSignal s1 wfId sid w sig = (some (.signaled payload), s2) ∧
        completeStep s2 sid w payload now2 = (true, s3) ∧
        getWf s3 wfId = some wf ∧
        getStep s3 sid = some { st with
          status := .completed
          output := some payload
          sleepUntil := none
          completedAt := some now2 } ∧
        getOrCreateStep s3 wfId stepName w now3 =
          .ok (⟨sid, .completed, some payload, st.error, none, false⟩, s3)) := by
  constructor
  · intro s wfId sig payload now wf sid st hget hwait hfw hstep
    have hs' : signalWorkflow s wfId sig payload now =
        (true,
         patchWf
           (patchStep s sid fun st0 =>
             { st0 with
                 status := .completed
                 output := some payload
                 awaitingSignal := none
                 completedAt := some now })
           wfId fun w0 => { w0 with status := .pending }) := by
      unfold signalWorkflow
      rw [hget, hfw]
      dsimp only
      rw [if_pos hwait]
    refine ⟨_, hs', ?_, ?_⟩
    · rw [getStep_patchWf, getStep_patchStep_self, hstep]
      rfl
    · rw [getWf_patchWf_self, getWf_patchStep, hget]
      rfl
  · intro s wfId sig stepName w payload now1 now2 now3 wf sid st hget hrun hclaim hstep
      hwid hsrun hnw hnops hmap
    have hs1 : signalWorkflow s wfId sig payload now1 =
        (true,
         patchWf s wfId fun w0 =>
           { w0 with pendingSignals := strInsert w0.pendingSignals sig payload }) := by
      unfold signalWorkflow
      rw [hget, hnw]
    have hget1 : getWf (patchWf s wfId fun w0 =>
        { w0 with pendingSignals := strInsert w0.pendingSignals sig payload }) wfId =
        some { wf with pendingSignals := strInsert wf.pendingSignals sig payload } := by
      rw [getWf_patchWf_self, hget]
      rfl
    have hstep1 : getStep (patchWf s wfId fun w0 =>
        { w0 with pendingSignals := strInsert w0.pendingSignals sig payload }) sid =
        some st := hstep
    have hw : waitForSignal
        (patchWf s wfId fun w0 =>
          { w0 with pendingSignals := strInsert w0.pendingSignals sig payload })
        wfId sid w sig =
        (some (.signaled payload),
         patchWf
           (patchWf s wfId fun w0 =>
             { w0 with pendingSignals := strInsert w0.pendingSignals sig payload })
           wfId fun w0 =>
           { w0 with pendingSignals := strRemove w0.pendingSignals sig }) := by
      unfold waitForSignal
      rw [hget1]
      dsimp only
      rw [if_pos ⟨hrun, hclaim⟩]
      rw [hstep1]
      dsimp only
      rw [if_pos ⟨hwid, hsrun⟩]
      rw [strFind_strInsert_self]
    have hget2 : getWf
        (patchWf
          (patchWf s wfId fun w0 =>
            { w0 with pendingSignals := strInsert w0.pendingSignals sig payload })
          wfId fun w0 =>
          { w0 with pendingSignals := strRemove w0.pendingSignals sig }) wfId =
        some wf := by
      rw [getWf_patchWf_self, hget1, Option.map_some']
      dsimp only
      rw [strRemove_strInsert_of_none _ _ _ hnops]
    have hstep2 : getStep
        (patchWf
          (patchWf s wfId fun w0 =>
            { w0 with pendingSignals := strInsert w0.pendingSignals sig payload })
          wfId fun w0 =>
          { w0 with pendingSignals := strRemove w0.pendingSignals sig }) sid =
        some st := hstep
    have hc : completeStep
        (patchWf
          (patchWf s wfId fun w0 =>
            { w0 with pendingSignals := strInsert w0.pendingSignals sig payload })
          wfId fun w0 =>
          { w0 with pendingSignals := strRemove w0.pendingSignals sig })
        sid w payload now2 =
        (true,
         patchStep
           (patchWf
             (patchWf s wfId fun w0 =>
               { w0 with pendingSignals := strInsert w0.pendingSignals sig payload })
             wfId fun w0 =>
             { w0 with pendingSignals := strRemove w0.pendingSignals sig })
           sid fun st0 =>
           { st0 with
               status := .completed
               output := some payload
               sleepUntil := none
               completedAt := some now2 }) := by
      unfold completeStep
      rw [hstep2]
      dsimp only
      rw [if_pos hsrun]
      rw [hwid, hget2]
      dsimp only
      rw [if_pos ⟨hrun, hclaim⟩]
    have hstep3 : getStep
        (patchStep
          (patchWf
            (patchWf s wfId fun w0 =>
              { w0 with pendingSignals := strInsert w0.pendingSignals sig payload })
            wfId fun w0 =>
            { w0 with pendingSignals := strRemove w0.pendingSignals sig })
          sid fun st0 =>
          { st0 with
              status := .completed
              output := some payload
              sleepUntil := none
              completedAt := some now2 }) sid =
        some { st with
          status := .completed
          output := some payload
          sleepUntil := none
          completedAt := some now2 } := by
      rw [getStep_patchStep_self, hstep2]
      rfl
    have hg : getOrCreateStep
        (patchStep
          (patchWf
            (patchWf s wfId fun w0 =>
              { w0 with pendingSignals := strInsert w0.pendingSignals sig payload })
            wfId fun w0 =>
            { w0 with pendingSignals := strRemove w0.pendingSignals sig })
          sid fun st0 =>
          { st0 with
              status := .completed
              output := some payload
              sleepUntil := none
              completedAt := some now2 })
        wfId stepName w now3 =
        .ok (⟨sid, .completed, some payload, st.error, none, false⟩,
          patchStep
            (patchWf
              (patchWf s wfId fun w0 =>
                { w0 with pendingSignals := strInsert w0.pendingSignals sig payload })
              wfId fun w0 =>
              { w0 with pendingSignals := strRemove w0.pendingSignals sig })
            sid fun st0 =>
            { st0 with
                status := .completed
                output := some payload
                sleepUntil := none
                completedAt := some now2 }) := by
      unfold getOrCreateStep
      rw [getWf_patchStep, hget2]
      dsimp only
      rw [if_pos ⟨hrun, hclaim⟩]
      rw [hmap]
      dsimp only
      rw [hstep3]
    exact ⟨_, _, _, hs1, hw, hc, (getWf_patchStep _ sid wfId _).trans hget2, hstep3, hg⟩

/-- Closed witness for `claim5_signal_roundtrip`: both branches evaluated at
concrete one-workflow stores. -/
theorem claim5_witness :
    (∃ s', signalWorkflow
        { workflows :=
            [(0, { name := "a", creationTime := 0, status := .waiting, input := .null })]
          steps :=
            [(5, { workflowId := 0, name := "m", status := .running,
                   awaitingSignal := some "sig" })]
          nextWorkflowId := 1
          nextStepId := 6
          nextCreationTime := 1 }
        0 "sig" (.int 7) 100 = (true, s') ∧
      getStep s' 5 =
        some { workflowId := 0, name := "m", status := .completed,
               output := some (.int 7), completedAt := some 100 } ∧
      getWf s' 0 =
        some { name := "a", creationTime := 0, status := .pending, input := .null }) ∧
    (∃ s1 s2 s3 : Store,
      signalWorkflow
        { workflows :=
            [(0, { name := "b", creationTime := 0, status := .running, input := .null,
                   claimedBy := some "w", claimedAt := some 0, leaseExpiresAt := some 30000,
                   stepIdsByName := [("m", 5)] })]
          steps := [(5, { workflowId := 0, name := "m", status := .running })]
          nextWorkflowId := 1
          nextStepId := 6
          nextCreationTime := 1 }
        0 "sig" (.int 9) 10 = (true, s1) ∧
      waitForSignal s1 0 5 "w" "sig" = (some (.signaled (.int 9)), s2) ∧
      completeStep s2 5 "w" (.int 9) 20 = (true, s3) ∧
      getWf s3 0 =
        some { name := "b", creationTime := 0, status := .running, input := .null,
               claimedBy := some "w", claimedAt := some 0, leaseExpiresAt := some 30000,
               stepIdsByName := [("m", 5)] } ∧
      getStep s3 5 =
        some { workflowId := 0, name := "m", status := .completed,
               output := some (.int 9), completedAt := some 20 } ∧
      getOrCreateStep s3 0 "m" "w" 30 =
        .ok (⟨5, .completed, some (.int 9), none, none, false⟩, s3)) := by
  constructor
  · exact claim5_signal_roundtrip.1
      { workflows :=
          [(0, { name := "a", creationTime := 0, status := .waiting, input := .null })]
        steps :=
          [(5, { workflowId := 0, name := "m", status := .running,
                 awaitingSignal := some "sig" })]
        nextWorkflowId := 1
        nextStepId := 6
        nextCreationTime := 1 }
      0 "sig" (.int 7) 100
      { name := "a", creationTime := 0, status := .waiting, input := .null }
      5
      { workflowId := 0, name := "m", status := .running, awaitingSignal := some "sig" }
      rfl rfl rfl rfl
  · exact claim5_signal_roundtrip.2
      { workflows :=
          [(0, { name := "b", creationTime := 0, status := .running, input := .null,
                 claimedBy := some "w", claimedAt := some 0, leaseExpiresAt := some 30000,
                 stepIdsByName := [("m", 5)] })]
        steps := [(5, { workflowId := 0, name := "m", status := .running })]
        nextWorkflowId := 1
        nextStepId := 6
        nextCreationTime := 1 }
      0 "sig" "m" "w" (.int 9) 10 20 30
      { name := "b", creationTime := 0, status := .running, input := .null,
        claimedBy := some "w", claimedAt := some 0, leaseExpiresAt := some 30000,
        stepIdsByName := [("m", 5)] }
      5
      { workflowId := 0, name := "m", status := .running }
      rfl rfl rfl rfl rfl rfl rfl rfl rfl

end Orchestrator
